import Mathlib

/-!
Verification development for the craft build tool (a Cargo-inspired build
system for C projects).  The definitions below are a shallow embedding of the
data model and operations of the source tree: `src/source.rs`,
`src/registry.rs`, `src/package_id.rs`, `src/package_id_spec.rs`,
`src/package.rs`, `src/sources/config.rs` and `src/sources/path.rs`.
Rust strings are modelled as lists of characters; hash maps are modelled as
association lists looked up with the same equality the Rust code uses; the
external `url` and `semver` crates are modelled by small structures together
with display/parse functions faithful to the shapes of values this code
produces and consumes.  Fallible Rust functions return `Except`/`Option`.
-/

namespace Craft

/-- Rust strings (`String` / `&str`) are modelled as lists of characters. -/
abbrev Str := List Char

/-- Split a string at the first occurrence of the character `c`, models Rust
`splitn(2, c)` when the separator occurs (`none` when it does not). -/
def splitOnFirst (c : Char) : Str → Option (Str × Str)
  | [] => none
  | a :: rest =>
    if a = c then some ([], rest)
    else (splitOnFirst c rest).map (fun p => (a :: p.1, p.2))

/-- Auxiliary accumulator version of `splitAll`. -/
def splitAllAux (c : Char) : Str → Str → List Str
  | [], acc => [acc.reverse]
  | a :: rest, acc =>
    if a = c then acc.reverse :: splitAllAux c rest []
    else splitAllAux c rest (a :: acc)

/-- Split a string at every occurrence of `c`, models Rust `split(c)`. -/
def splitAll (c : Char) (s : Str) : List Str := splitAllAux c s []

/-- Substring containment test, models Rust `str::contains(pat)`. -/
def containsSeq (pat : Str) : Str → Bool
  | [] => decide (pat = [])
  | a :: rest => List.isPrefixOf pat (a :: rest) || containsSeq pat rest

/-- Decimal digit characters of a natural number, most significant first;
models the Rust display of unsigned integers. -/
def natToChars (n : Nat) : Str :=
  if n = 0 then ['0']
  else (Nat.digits 10 n).reverse.map (fun d => Char.ofNat (d + 48))

/-- Parse a nonempty all-digit string as a natural number. -/
def parseNatChars (s : Str) : Option Nat :=
  if s = [] then none
  else if s.all Char.isDigit then
    some (Nat.ofDigits 10 ((s.map (fun c => c.toNat - 48)).reverse))
  else none

/-- Truth of `Except.isOk` as a plain boolean. -/
def exceptIsOk {ε α : Type} : Except ε α → Bool
  | .ok _ => true
  | .error _ => false

instance {ε α : Type} [DecidableEq ε] [DecidableEq α] : DecidableEq (Except ε α) := fun a b =>
  match a, b with
  | .error e, .error f =>
    if h : e = f then isTrue (by rw [h]) else isFalse (by simp [h])
  | .ok x, .ok y =>
    if h : x = y then isTrue (by rw [h]) else isFalse (by simp [h])
  | .error _, .ok _ => isFalse (by simp)
  | .ok _, .error _ => isFalse (by simp)

/-- Characters that carry no special meaning in any of the textual formats of
this development (URLs, package id specs, source-id urls). -/
def plainChar (c : Char) : Bool := c.isAlphanum || c == '-' || c == '_' || c == '.'

/-- Model of `url::Url` from the external `url` crate, restricted to
authority-based URLs (the only kind this code base produces): a scheme, a
host, a path given by its segments, and optional query and fragment. -/
structure Url where
  scheme : Str
  host : Str
  path : List Str
  query : Option Str
  fragment : Option Str
deriving DecidableEq

/-- Serialization of the path segments, with a leading slash per segment. -/
def pathChars : List Str → Str
  | [] => []
  | seg :: rest => '/' :: (seg ++ pathChars rest)

/-- Optional component prefixed by a marker character (query, fragment). -/
def optPart (c : Char) : Option Str → Str
  | none => []
  | some s => c :: s

/-- Model of the `Display`/`as_str` serialization of a `url::Url`. -/
def Url.display (u : Url) : Str :=
  u.scheme ++ ':' :: '/' :: '/' :: (u.host ++ pathChars u.path)
    ++ optPart '?' u.query ++ optPart '#' u.fragment

/-- Characters ending the host component of a URL. -/
def hostEnd (c : Char) : Bool := c == '/' || c == '?' || c == '#'

/-- Characters ending the path component of a URL. -/
def pathEnd (c : Char) : Bool := c == '?' || c == '#'

/-- Path, query and fragment of the serialization remaining after the host. -/
def parsePathQF (rest3 : Str) : List Str × Option Str × Option Str :=
  let pathPart := rest3.takeWhile (fun c => !pathEnd c)
  let rest4 := rest3.dropWhile (fun c => !pathEnd c)
  let path : List Str := match pathPart with
    | '/' :: r => splitAll '/' r
    | _ => []
  let query : Option Str := match rest4 with
    | '?' :: r => some (r.takeWhile (fun c => c != '#'))
    | _ => none
  let rest5 : Str := match rest4 with
    | '?' :: r => r.dropWhile (fun c => c != '#')
    | _ => rest4
  let fragment : Option Str := match rest5 with
    | '#' :: r => some r
    | _ => none
  (path, query, fragment)

/-- Model of `url::Url::parse` on authority-based URLs: scheme up to the
first colon, a mandatory double slash, host up to the first delimiter, then
path segments, query and fragment.  Strings without a scheme separator are
rejected, as the `url` crate rejects relative URLs without a base. -/
def parseUrlChars (s : Str) : Except Str Url :=
  match splitOnFirst ':' s with
  | some (scheme, '/' :: '/' :: rest2) =>
    let host := rest2.takeWhile (fun c => !hostEnd c)
    let rest3 := rest2.dropWhile (fun c => !hostEnd c)
    let pqf := parsePathQF rest3
    .ok { scheme := scheme, host := host, path := pqf.1, query := pqf.2.1, fragment := pqf.2.2 }
  | _ => .error ("relative URL without a base").data

/-- Model of `query_pairs()` of the `url` crate: split the query on the
ampersand and each pair at its first equals sign. -/
def queryPairs : Option Str → List (Str × Str)
  | none => []
  | some qs => (splitAll '&' qs).map (fun pr =>
      match splitOnFirst '=' pr with
      | some (k, v) => (k, v)
      | none => (pr, ([] : Str)))

/-- URLs in the canonical shape this development reasons about: nonempty
alphabetic scheme, plain host and path segment characters, at least one path
segment, no query and no fragment. -/
def wellFormedUrl (u : Url) : Prop :=
  u.scheme ≠ [] ∧ (∀ c ∈ u.scheme, c.isAlpha = true) ∧
  (∀ c ∈ u.host, plainChar c = true) ∧
  u.path ≠ [] ∧ (∀ seg ∈ u.path, ∀ c ∈ seg, plainChar c = true) ∧
  u.query = none ∧ u.fragment = none

instance (u : Url) : Decidable (wellFormedUrl u) := by
  unfold wellFormedUrl; infer_instance

/-- Model of `semver::Version` from the external `semver` crate, restricted to
its numeric core (major, minor, patch). -/
structure SemVersion where
  major : Nat
  minor : Nat
  patch : Nat
deriving DecidableEq

/-- Serialization of a version, models `Display for semver::Version`. -/
def SemVersion.display (v : SemVersion) : Str :=
  natToChars v.major ++ '.' :: natToChars v.minor ++ '.' :: natToChars v.patch

/-- Model of `semver::Version::parse` (also of `ToSemver::to_semver`, whose
module `util/to_semver.rs` delegates to it): exactly three dot-separated
numeric components. -/
def SemVersion.parse (s : Str) : Option SemVersion :=
  match splitAll '.' s with
  | [a, b, c] =>
    match parseNatChars a, parseNatChars b, parseNatChars c with
    | some x, some y, some z => some ⟨x, y, z⟩
    | _, _, _ => none
  | _ => none

/-- Lexicographic order on versions. -/
def SemVersion.le (a b : SemVersion) : Bool :=
  decide (a.major < b.major) ||
    (decide (a.major = b.major) &&
      (decide (a.minor < b.minor) ||
        (decide (a.minor = b.minor) && decide (a.patch ≤ b.patch))))

/-- Model of `semver::VersionReq`, restricted to the requirement shapes this
development needs: the wildcard requirement, an exact pin (as produced by
`VersionReq::exact`), and a lower bound. -/
inductive VersionReq where
  | any : VersionReq
  | exact (v : SemVersion) : VersionReq
  | gte (v : SemVersion) : VersionReq
deriving DecidableEq

/-- Whether a version satisfies a requirement, models `VersionReq::matches`. -/
def VersionReq.matches : VersionReq → SemVersion → Bool
  | .any, _ => true
  | .exact v, w => decide (v = w)
  | .gte v, w => SemVersion.le v w

/-- Git reference of a git source, from `src/source.rs` (`GitReference`). -/
inductive GitReference where
  | tag (s : Str) : GitReference
  | branch (s : Str) : GitReference
  | rev (s : Str) : GitReference
deriving DecidableEq

/-- Kind of a source, from `src/source.rs` (the private `Kind` enum). -/
inductive SourceKind where
  | git (reference : GitReference) : SourceKind
  | path : SourceKind
  | registry : SourceKind
  | localRegistry : SourceKind
  | directory : SourceKind
deriving DecidableEq

/-- Modelled from the spec: `git::canonicalize_url` (the module
`src/sources/git` is not among the sources).  Per the spec, the canonical URL
identifies trivially different git URL spellings: case differences and a
trailing `.git`; modelled by lowercasing the host and stripping a trailing
`.git` from the last path segment. -/
def stripDotGit (s : Str) : Str :=
  if List.isSuffixOf ['.', 'g', 'i', 't'] s then s.take (s.length - 4) else s

/-- Strip a trailing `.git` from the last path segment. -/
def stripLastDotGit : List Str → List Str
  | [] => []
  | [s] => [stripDotGit s]
  | s :: rest => s :: stripLastDotGit rest

/-- Modelled from the spec: canonicalization of a git URL (see
`stripDotGit`). -/
def canonicalizeUrl (u : Url) : Url :=
  { u with host := u.host.map Char.toLower, path := stripLastDotGit u.path }

/-- Unique identifier of a source of packages, from `src/source.rs`
(`SourceId` / `SourceIdInner`; the `Arc` sharing layer is flattened away). -/
structure SourceId where
  url : Url
  canonical_url : Url
  kind : SourceKind
  precise : Option Str
deriving DecidableEq

/-- Constructor `SourceId::new`: the canonical URL is computed from the URL
and the precise pin starts out absent. -/
def SourceId.new (kind : SourceKind) (url : Url) : SourceId :=
  { url := url, canonical_url := canonicalizeUrl url, kind := kind, precise := none }

/-- Constructor `SourceId::for_path` (the path argument enters as its file
URL, produced by `Path::to_url`). -/
def SourceId.forPath (u : Url) : SourceId := SourceId.new SourceKind.path u

/-- Constructor `SourceId::for_git`. -/
def SourceId.forGit (u : Url) (reference : GitReference) : SourceId :=
  SourceId.new (SourceKind.git reference) u

/-- Constructor `SourceId::for_registry`. -/
def SourceId.forRegistry (u : Url) : SourceId := SourceId.new SourceKind.registry u

/-- Constructor `SourceId::for_local_registry` (path as its file URL). -/
def SourceId.forLocalRegistry (u : Url) : SourceId :=
  SourceId.new SourceKind.localRegistry u

/-- Constructor `SourceId::for_directory` (path as its file URL). -/
def SourceId.forDirectory (u : Url) : SourceId := SourceId.new SourceKind.directory u

/-- Method `SourceId::with_precise`. -/
def SourceId.with_precise (s : SourceId) (v : Option Str) : SourceId :=
  { s with precise := v }

/-- Custom equality of source ids, from `impl PartialEq for SourceIdInner`:
the kinds must agree; equal URLs suffice, and two git sources are also equal
when their canonical URLs agree.  The `precise` field never participates. -/
def sourceIdEq (a b : SourceId) : Bool :=
  if a.kind = b.kind then
    if a.url = b.url then true
    else
      match a.kind, b.kind with
      | SourceKind.git r1, SourceKind.git r2 =>
        decide (r1 = r2) && decide (a.canonical_url = b.canonical_url)
      | _, _ => false
  else false

/-- Hash of a source id, from `impl Hash for SourceId`: the kind (which for a
git source includes the reference) followed by the serialized canonical URL
for git sources and the serialized URL otherwise.  The `precise` field never
participates. -/
def sourceIdHash (s : SourceId) : SourceKind × Str :=
  (s.kind,
    match s.kind with
    | SourceKind.git _ => s.canonical_url.display
    | _ => s.url.display)

/-- The invariant every source id built by the constructors satisfies: the
stored canonical URL is the canonicalization of the stored URL. -/
def SourceId.wf (s : SourceId) : Prop := s.canonical_url = canonicalizeUrl s.url

instance (s : SourceId) : Decidable (SourceId.wf s) := by
  unfold SourceId.wf; infer_instance

/-- Method `GitReference::to_ref_string`. -/
def GitReference.toRefString : GitReference → Option Str
  | .branch s => if s = ['m', 'a', 's', 't', 'e', 'r'] then none
      else some (['b', 'r', 'a', 'n', 'c', 'h', '='] ++ s)
  | .tag s => some (['t', 'a', 'g', '='] ++ s)
  | .rev s => some (['r', 'e', 'v', '='] ++ s)

/-- Method `GitReference::url_ref`. -/
def GitReference.urlRef (r : GitReference) : Str :=
  match r.toRefString with
  | none => []
  | some s => '?' :: s

/-- Method `SourceId::to_url`: serialize a source id as `kind+url` with the
reference and precise revision appended for git sources. -/
def SourceId.toUrl (s : SourceId) : Str :=
  match s.kind with
  | SourceKind.path => ("path+").data ++ s.url.display
  | SourceKind.git reference =>
    ("git+").data ++ s.url.display ++ reference.urlRef
      ++ (match s.precise with
          | some p => '#' :: p
          | none => [])
  | SourceKind.registry => ("registry+").data ++ s.url.display
  | SourceKind.localRegistry => ("local-registry+").data ++ s.url.display
  | SourceKind.directory => ("directory+").data ++ s.url.display

/-- Fold of `for (k, v) in url.query_pairs()` in `SourceId::from_url` for the
git case: the keys `branch` and `ref` select a branch, `rev` a revision and
`tag` a tag; other keys are ignored and later pairs override earlier ones. -/
def gitRefOfPairs (pairs : List (Str × Str)) : GitReference :=
  pairs.foldl
    (fun r p =>
      if p.1 = ("branch").data || p.1 = ("ref").data then GitReference.branch p.2
      else if p.1 = ("rev").data then GitReference.rev p.2
      else if p.1 = ("tag").data then GitReference.tag p.2
      else r)
    (GitReference.branch ("master").data)

/-- Method `SourceId::from_url`: parse `kind+url`.  Only the protocols `git`,
`registry` and `path` are understood; anything else is an error. -/
def SourceId.fromUrl (string : Str) : Except Str SourceId :=
  match splitOnFirst '+' string with
  | none => .error ("invalid source").data
  | some (kind, url) =>
    if kind = ("git").data then
      match parseUrlChars url with
      | .error e => .error e
      | .ok u =>
        let reference := gitRefOfPairs (queryPairs u.query)
        let precise := u.fragment
        let u2 : Url := { u with fragment := none, query := none }
        .ok ((SourceId.forGit u2 reference).with_precise precise)
    else if kind = ("registry").data then
      match parseUrlChars url with
      | .error e => .error e
      | .ok u =>
        .ok ((SourceId.new SourceKind.registry u).with_precise (some ("locked").data))
    else if kind = ("path").data then
      match parseUrlChars url with
      | .error e => .error e
      | .ok u => .ok (SourceId.new SourceKind.path u)
    else .error ("unsupported source protocol").data

/-- Whether the source loaded for a kind of source id reports checksum
support: `RegistrySource` (remote and local) and `DirectorySource` return
`true`; path and git sources inherit the default `false` of the `Registry`
trait. -/
def SourceKind.supportsChecksums : SourceKind → Bool
  | SourceKind.registry => true
  | SourceKind.localRegistry => true
  | SourceKind.directory => true
  | _ => false

/-- Identifier of a specific version of a package in a specific source, from
`src/package_id.rs` (`PackageId` / `PackageIdInner`, sharing flattened). -/
structure PackageId where
  name : Str
  version : SemVersion
  source_id : SourceId
deriving DecidableEq

/-- Equality of package ids, from the derived `PartialEq` of `PackageIdInner`:
component-wise, with the custom source-id equality for the source. -/
def pkgIdEq (a b : PackageId) : Bool :=
  decide (a.name = b.name) && decide (a.version = b.version)
    && sourceIdEq a.source_id b.source_id

/-- Hash of a package id, from `impl Hash for PackageId`: name, version and
the source-id hash in order. -/
def pkgIdHash (a : PackageId) : Str × SemVersion × SourceKind × Str :=
  (a.name, a.version, sourceIdHash a.source_id)

/-- Dependency kind.  Modelled from the spec: the module
`src/dependency.rs` is not among the sources; the spec lists
`kind ∈ Normal | Build | Dev`. -/
inductive DepKind where
  | normal : DepKind
  | build : DepKind
  | dev : DepKind
deriving DecidableEq

/-- Modelled from the spec: `Dependency` (the module `src/dependency.rs` is
not among the sources).  Per the spec a dependency is
`(name, version_req, source_id, kind, optional, default_features, features[],
platform_filter?, is_transitive)`. -/
structure Dependency where
  name : Str
  req : VersionReq
  source_id : SourceId
  kind : DepKind
  optionalDep : Bool
  default_features : Bool
  features : List Str
  platform : Option Str
  is_transitive : Bool
deriving DecidableEq

/-- Modelled from the spec: `Dependency::matches_id` (see the comments on
`PackageRegistry::lock` in `src/registry.rs`: a lock entry from a different
source, or one the version requirement no longer accepts, is discarded by
`matches_id`).  The name must agree, the version requirement must accept the
version of the id, and the source ids must be equal. -/
def Dependency.matches_id (d : Dependency) (id : PackageId) : Bool :=
  decide (d.name = id.name) && d.req.matches id.version
    && sourceIdEq d.source_id id.source_id

/-- Modelled from the spec: `Dependency::lock_to` rewrites a dependency to an
exact requirement on the locked id, pointing at the id source. -/
def Dependency.lock_to (d : Dependency) (id : PackageId) : Dependency :=
  { d with req := VersionReq.exact id.version, source_id := id.source_id }

/-- Modelled from the spec: `Summary` (the module `src/summary.rs` is not
among the sources).  Per the spec a summary is
`(package_id, dependencies[], features_map, checksum?)`. -/
structure Summary where
  package_id : PackageId
  dependencies : List Dependency
  features : List (Str × List Str)
  checksum : Option Str
deriving DecidableEq

/-- The summary name is the name of its package id. -/
def Summary.name (s : Summary) : Str := s.package_id.name

/-- The summary source is the source of its package id. -/
def Summary.source_id (s : Summary) : SourceId := s.package_id.source_id

/-- Modelled from the spec: `Summary::override_id` replaces the package id of
a summary. -/
def Summary.override_id (s : Summary) (id : PackageId) : Summary :=
  { s with package_id := id }

/-- Modelled from the spec: `Summary::map_dependencies` applies a function to
every dependency of a summary. -/
def Summary.map_dependencies (s : Summary) (f : Dependency → Dependency) : Summary :=
  { s with dependencies := s.dependencies.map f }

/-- Classification of a loaded source inside the package registry, from
`src/registry.rs` (the private `Kind` enum there). -/
inductive RegKind where
  | override : RegKind
  | locked : RegKind
  | normal : RegKind
deriving DecidableEq

/-- The nested lock map of the registry:
`{source → {name → [(package_id, [locked_dep_ids])]}}`, with the hash maps as
association lists looked up through the same equalities the Rust maps use. -/
abbrev LockedMap := List (SourceId × List (Str × List (PackageId × List PackageId)))

/-- State of a `PackageRegistry` from `src/registry.rs`: which sources are
loaded (`source_ids`, the map recording for each key which exact id was
loaded and its classification), the lock map, and the override list.  The
`SourceMap` of live source objects is not part of the state; an `update()`
call on a source is reported as the boolean result of the step functions. -/
structure RegistryState where
  source_ids : List (SourceId × SourceId × RegKind)
  locked : LockedMap
  overrides : List SourceId

/-- Lookup in `source_ids`, models `HashMap::get` keyed by `SourceId` (whose
equality and hash ignore the precise pin). -/
def lookupSrc (m : List (SourceId × SourceId × RegKind)) (ns : SourceId) :
    Option (SourceId × RegKind) :=
  (m.find? (fun e => sourceIdEq e.1 ns)).map (fun e => e.2)

/-- Insert into `source_ids`, models `HashMap::insert`: when the key is
already present the stored value is replaced and the key is kept, otherwise
the pair is added. -/
def insertSrc (m : List (SourceId × SourceId × RegKind)) (id : SourceId)
    (v : SourceId × RegKind) : List (SourceId × SourceId × RegKind) :=
  if (m.find? (fun e => sourceIdEq e.1 id)).isSome then
    m.map (fun e => if sourceIdEq e.1 id then (e.1, v) else e)
  else (id, v) :: m

/-- Method `PackageRegistry::load`: pushes override sources on the override
list, records the source under its id and classification, and updates the
source (the returned boolean marks that `update()` ran). -/
def RegistryState.load (st : RegistryState) (source_id : SourceId) (kind : RegKind) :
    RegistryState × Bool :=
  let st1 := if kind = RegKind.override
    then { st with overrides := st.overrides ++ [source_id] } else st
  ({ st1 with source_ids := insertSrc st1.source_ids source_id (source_id, kind) }, true)

/-- Method `PackageRegistry::ensure_loaded`: an already locked source is never
reloaded; a previously loaded imprecise source needs no update; a previous
precise pin equal to the requested one needs no update; otherwise the source
is loaded (and updated). -/
def RegistryState.ensure_loaded (st : RegistryState) (ns : SourceId) (kind : RegKind) :
    RegistryState × Bool :=
  match lookupSrc st.source_ids ns with
  | some (_, RegKind.locked) => (st, false)
  | some (previous, _) =>
    if previous.precise = none then (st, false)
    else if previous.precise = ns.precise then (st, false)
    else st.load ns kind
  | none => st.load ns kind

/-- Method `PackageRegistry::add_preloaded` (through `add_source` with the
`Locked` classification; no update is performed). -/
def RegistryState.add_preloaded (st : RegistryState) (id : SourceId) : RegistryState :=
  { st with source_ids := insertSrc st.source_ids id (id, RegKind.locked) }

/-- A sequence of `ensure_loaded` calls, returning the final state and, per
call, the queried id and whether `update()` ran for it. -/
def runEnsures (st : RegistryState) : List (SourceId × RegKind) →
    RegistryState × List (SourceId × Bool)
  | [] => (st, [])
  | (id, k) :: rest =>
    let step := st.ensure_loaded id k
    let next := runEnsures step.1 rest
    (next.1, (id, step.2) :: next.2)

/-- Lookup of the per-source map in the lock map, through source-id
equality. -/
def lockedGet (locked : LockedMap) (sid : SourceId) :
    Option (List (Str × List (PackageId × List PackageId))) :=
  (locked.find? (fun e => sourceIdEq e.1 sid)).map (fun e => e.2)

/-- Lookup of the per-name list in a per-source lock map. -/
def nameGet {α : Type} (m : List (Str × α)) (n : Str) : Option α :=
  (m.find? (fun e => decide (e.1 = n))).map (fun e => e.2)

/-- The lock entry the registry finds for a summary: same source, same name,
and a recorded package id equal to the id of the summary. -/
def lockPair (st : RegistryState) (summary : Summary) :
    Option (PackageId × List PackageId) :=
  ((lockedGet st.locked summary.source_id).bind
      (fun m => nameGet m summary.name)).bind
    (fun vec => vec.find? (fun pr => pkgIdEq pr.1 summary.package_id))

/-- The dependency-rewriting closure of `PackageRegistry::lock` (with the
captured `pair` passed explicitly): lock the dependency to the first matching
id of the locked-deps list of the prior resolution of the summary, otherwise
to the first matching id among the lock entries registered for the dependency
source and name, otherwise pass it through unchanged. -/
def lockDep (st : RegistryState) (pair : Option (PackageId × List PackageId))
    (dep : Dependency) : Dependency :=
  match (match pair with
         | some pr => pr.2.find? (fun id => dep.matches_id id)
         | none => none) with
  | some locked => dep.lock_to locked
  | none =>
    match ((lockedGet st.locked dep.source_id).bind
        (fun m => nameGet m dep.name)).bind
        (fun vec => vec.find? (fun pr => dep.matches_id pr.1)) with
    | some pr => dep.lock_to pr.1
    | none => dep

/-- Method `PackageRegistry::lock`: rewrite a summary through the lock map.
The summary id is replaced by the locked precise id when its lock entry
exists; every dependency is rewritten by `lockDep`. -/
def RegistryState.lock (st : RegistryState) (summary : Summary) : Summary :=
  let pair := lockPair st summary
  let summary1 :=
    match pair with
    | some pr => summary.override_id pr.1
    | none => summary
  summary1.map_dependencies (lockDep st pair)

/-- The locked-deps list of the prior resolution of the summary (empty when
the summary has no lock entry). -/
def ownLockedDeps (st : RegistryState) (s : Summary) : List PackageId :=
  match lockPair st s with
  | some pr => pr.2
  | none => []

/-- The lock entries registered for the source and name of a dependency. -/
def registeredLocked (st : RegistryState) (d : Dependency) :
    List (PackageId × List PackageId) :=
  ((lockedGet st.locked d.source_id).bind (fun m => nameGet m d.name)).getD []

/-- Whether a source was loaded and locked in the registry state. -/
def isLockedFor (st : RegistryState) (ns : SourceId) : Prop :=
  ∃ p, lookupSrc st.source_ids ns = some (p, RegKind.locked)

/-- Method `PackageRegistry::query_overrides`, with the query results of the
override sources (in override order) supplied as data: the first override
source returning a nonempty result supplies the override summary (its first
element, the `results.remove(0)` of the code). -/
def queryOverrides : List (List Summary) → Option Summary
  | [] => none
  | results :: rest =>
    match results with
    | [] => queryOverrides rest
    | s :: _ => some s

/-- One step of the removal loop of `warn_bad_override`: find the position of
the first locked real dependency matched by `dep` and remove it. -/
def removeMatched (dep : Dependency) : List PackageId → Option (List PackageId)
  | [] => none
  | id :: rest =>
    if dep.matches_id id then some rest
    else (removeMatched dep rest).map (fun l => id :: l)

/-- The loop bodies of `warn_bad_override`: walk the override dependencies,
removing each matched locked real dependency; the first override dependency
with no match emits one warning and stops, and otherwise the first remaining
(removed) locked dependency emits one warning; the emitted warnings are
returned. -/
def warnLoop : List Dependency → List PackageId → List Str
  | [], real_deps =>
    match real_deps with
    | [] => []
    | _ :: _ => ("warning: path override removed a dependency").data :: []
  | dep :: deps, real_deps =>
    match removeMatched dep real_deps with
    | some rest => warnLoop deps rest
    | none => ("warning: path override added or modified a dependency").data :: []

/-- Method `PackageRegistry::warn_bad_override`: failing to find the lock
source, the lock name or the lock version of the real summary is an error;
otherwise the override dependency list is compared against the locked real
dependency list and divergences produce warnings. -/
def warnBadOverride (st : RegistryState) (override_summary real_summary : Summary) :
    Except Str (List Str) :=
  match lockedGet st.locked real_summary.source_id with
  | none => .error ("failed to find lock source of the real summary").data
  | some map =>
    match nameGet map real_summary.name with
    | none => .error ("failed to find lock name of the real summary").data
    | some list =>
      match list.find? (fun pr => pkgIdEq real_summary.package_id pr.1) with
      | none => .error ("failed to find lock version of the real summary").data
      | some pr => .ok (warnLoop override_summary.dependencies pr.2)

/-- Method `Registry::query` for `PackageRegistry`, with the query results of
the override sources and of the real source supplied as data (`none` for the
real source models `sources.get_mut` finding no source).  The dependency
source is loaded first; an override match against anything but exactly one
real summary is an error, a lone override match is checked by
`warn_bad_override` and replaces the real summary; finally every returned
summary is locked.  The result carries the warnings emitted. -/
def pkgQuery (st : RegistryState) (dep : Dependency) (ovResults : List (List Summary))
    (real : Option (List Summary)) :
    RegistryState × Except Str (List Summary × List Str) :=
  let step := st.ensure_loaded dep.source_id RegKind.normal
  let st1 := step.1
  let res : Except Str (List Summary × List Str) :=
    match queryOverrides ovResults, real with
    | some candidate, some summaries =>
      match summaries with
      | [real_summary] =>
        match warnBadOverride st1 candidate real_summary with
        | .error e => .error e
        | .ok warns => .ok ([candidate], warns)
      | _ => .error ("found an override with a non-locked list").data
    | some _, none => .error ("override found but no real ones").data
    | none, some summaries => .ok (summaries, [])
    | none, none => .ok ([], [])
  match res with
  | .error e => (st1, .error e)
  | .ok (ret, warns) => (st1, .ok (ret.map (fun s => st1.lock s), warns))

/-- Characters the package-id-spec parser accepts in plain names, from
`PackageIdSpec::parse`: alphanumeric, underscore or hyphen. -/
def nameOkChar (c : Char) : Bool := c.isAlphanum || c == '_' || c == '-'

/-- Specification of a set of package ids, from `src/package_id_spec.rs`. -/
structure PackageIdSpec where
  name : Str
  version : Option SemVersion
  url : Option Url
deriving DecidableEq

/-- The `Display` rendering of a package id spec: the URL (for the `craft`
scheme only its host and path), a `#name` suffix when the name differs from
the last path segment, and the version separated by `:` after a printed name
and by `#` otherwise; without a URL, the name with an optional `:version`. -/
def PackageIdSpec.display (v : PackageIdSpec) : Str :=
  match v.url with
  | some url =>
    let urlPart := if url.scheme = ("craft").data
      then url.host ++ pathChars url.path else url.display
    if (url.path.getLast?).getD [] ≠ v.name then
      urlPart ++ '#' :: v.name
        ++ (match v.version with
            | some ver => ':' :: ver.display
            | none => [])
    else
      urlPart ++ (match v.version with
          | some ver => '#' :: ver.display
          | none => [])
  | none =>
    v.name ++ (match v.version with
        | some ver => ':' :: ver.display
        | none => [])

/-- Method `PackageIdSpec::from_url`: a query string is rejected; the name
and version come from the fragment when one is present (a `name:version`
fragment, a fragment starting alphabetically as a bare name, anything else
as a version attached to the last path segment), and from the last path
segment otherwise.  An empty fragment makes the original code panic on
`chars().next().unwrap()`; the model returns an error for it. -/
def PackageIdSpec.fromUrlModel (url : Url) : Except Str PackageIdSpec :=
  if url.query.isSome then .error ("cannot have a query string in a pkgid").data
  else
    match url.path.getLast? with
    | none => .error ("pkgid urls must have at least one path component").data
    | some path_name =>
      let url2 : Url := { url with fragment := none }
      match url.fragment with
      | some fragment =>
        match splitOnFirst ':' fragment with
        | some (name_or_version, part) =>
          match SemVersion.parse part with
          | some version =>
            .ok { name := name_or_version, version := some version, url := some url2 }
          | none => .error ("invalid version").data
        | none =>
          match fragment with
          | [] => .error ("empty pkgid fragment").data
          | c :: _ =>
            if c.isAlpha then
              .ok { name := fragment, version := none, url := some url2 }
            else
              match SemVersion.parse fragment with
              | some version =>
                .ok { name := path_name, version := some version, url := some url2 }
              | none => .error ("invalid version").data
      | none => .ok { name := path_name, version := none, url := some url2 }

/-- The name/version branch of `PackageIdSpec::parse`: split at the first
colon, parse the version when one is present, then validate the name
characters. -/
def parsePlainSpec (spec : Str) : Except Str PackageIdSpec :=
  let pr : Str × Option Str :=
    match splitOnFirst ':' spec with
    | some (n, v) => (n, some v)
    | none => (spec, none)
  match pr.2 with
  | some vs =>
    match SemVersion.parse vs with
    | some v =>
      if pr.1.all nameOkChar then .ok { name := pr.1, version := some v, url := none }
      else .error ("invalid character in pkgid").data
    | none => .error ("invalid version").data
  | none =>
    if pr.1.all nameOkChar then .ok { name := pr.1, version := none, url := none }
    else .error ("invalid character in pkgid").data

/-- Method `PackageIdSpec::parse`: a spec containing a slash is first tried
as a URL, then (when it has no `://`) as a `craft://` URL; otherwise, and
when both URL parses fail, it is read as `name[:version]`. -/
def PackageIdSpec.parse (spec : Str) : Except Str PackageIdSpec :=
  if spec.contains '/' then
    match parseUrlChars spec with
    | .ok url => PackageIdSpec.fromUrlModel url
    | .error _ =>
      if !containsSeq [':', '/', '/'] spec then
        match parseUrlChars (("craft://").data ++ spec) with
        | .ok url => PackageIdSpec.fromUrlModel url
        | .error _ => parsePlainSpec spec
      else parsePlainSpec spec
  else parsePlainSpec spec

/-- Configuration of one replaceable source, from `src/sources/config.rs`
(`SourceConfig`; the config-file path carried for error messages is
dropped). -/
structure SourceConfig where
  id : SourceId
  replace_with : Option Str

/-- The source replacement table, from `src/sources/config.rs`
(`SourceConfigMap`): configurations by name, and the name of the
configuration that defined each source id. -/
structure SourceConfigMap where
  cfgs : List (Str × SourceConfig)
  id2name : List (SourceId × Str)

/-- Lookup of the configuration name registered for a source id. -/
def lookupName (l : List (SourceId × Str)) (id : SourceId) : Option Str :=
  (l.find? (fun e => sourceIdEq e.1 id)).map (fun e => e.2)

/-- The outcome of `SourceConfigMap::load`: either the source of the
requested id itself, or a `ReplacedSource` presenting the requested id on
top of the replacement id. -/
inductive LoadedSource where
  | direct (id : SourceId) : LoadedSource
  | replaced (to_replace : SourceId) (replace_with : SourceId) : LoadedSource
deriving DecidableEq

/-- The `loop` of `SourceConfigMap::load`, fuelled (`none` means the fuel ran
out, marking divergence): look up the current name; follow its
`replace-with` pointer, erroring when the pointer returns to the original
name; a configuration without a pointer either resolves to the requested id
itself (`ok none`) or produces the replacement id carrying the precise pin
of the requested id (`ok (some new_id)`). -/
def scmLoop (m : SourceConfigMap) (id : SourceId) (origName : Str) :
    Nat → Str → Option (Except Str (Option SourceId))
  | 0, _ => none
  | fuel + 1, name =>
    match nameGet m.cfgs name with
    | none => some (.error ("could not find a configured source with the name").data)
    | some cfg =>
      match cfg.replace_with with
      | some s =>
        if s = origName then
          some (.error ("detected a cycle of replace-with sources").data)
        else scmLoop m id origName fuel s
      | none =>
        if sourceIdEq id cfg.id then some (.ok none)
        else some (.ok (some (cfg.id.with_precise id.precise)))

/-- Method `SourceConfigMap::load`, fuelled: an id without a configured name
loads directly; otherwise the replace-with chain is followed, and when it
produces a replacement id whose checksum support differs from that of the
requested id the load fails before constructing the `ReplacedSource`. -/
def scmLoad (m : SourceConfigMap) (id : SourceId) (fuel : Nat) :
    Option (Except Str LoadedSource) :=
  match lookupName m.id2name id with
  | none => some (.ok (.direct id))
  | some name =>
    match scmLoop m id name fuel name with
    | none => none
    | some (.error e) => some (.error e)
    | some (.ok none) => some (.ok (.direct id))
    | some (.ok (some new_id)) =>
      if new_id.kind.supportsChecksums != id.kind.supportsChecksums then
        some (.error ("cannot replace the source: checksum support differs").data)
      else some (.ok (.replaced id new_id))

/-- The file filter closure of `PathSource::list_files`
(`src/sources/path.rs`): a candidate file is kept when some include pattern
matches its path relative to the package root, or when the include list is
empty and no exclude pattern matches.  Glob patterns of the external `glob`
crate are modelled as their matching predicates. -/
def listFilesFilter (includePats excludePats : List (Str → Bool))
    (relative_path : Str) : Bool :=
  includePats.any (fun p => p relative_path) ||
    (includePats.isEmpty && !(excludePats.any (fun p => p relative_path)))

/-- A build target of a manifest (only the fields this development needs). -/
structure Target where
  name : Str
  src_path : Str
deriving DecidableEq

/-- Package manifest, from `src/manifest.rs` (`Manifest`), restricted to the
fields the verified claims touch. -/
structure Manifest where
  summary : Summary
  targets : List Target
  links : Option Str
  exclude : List Str
  includePatterns : List Str
  publish : Bool
deriving DecidableEq

/-- Method `Manifest::package_id`. -/
def Manifest.package_id (m : Manifest) : PackageId := m.summary.package_id

/-- A package: its manifest plus the path of the manifest file, from
`src/package.rs` (`Package`). -/
structure Package where
  manifest : Manifest
  manifest_path : Str
deriving DecidableEq

/-- Method `Package::package_id`. -/
def Package.package_id (p : Package) : PackageId := p.manifest.package_id

/-- Equality of packages, from `impl PartialEq for Package`: the package ids
alone are compared. -/
def packageEq (a b : Package) : Bool := pkgIdEq a.package_id b.package_id

/-- Hash of a package, from `impl Hash for Package`: the package id alone is
hashed. -/
def packageHash (p : Package) : Str × SemVersion × SourceKind × Str :=
  pkgIdHash p.package_id

/-- Git references whose serialization is free of URL metacharacters. -/
def plainGitRef : GitReference → Prop
  | .branch s => ∀ c ∈ s, plainChar c = true
  | .tag s => ∀ c ∈ s, plainChar c = true
  | .rev s => ∀ c ∈ s, plainChar c = true

instance (r : GitReference) : Decidable (plainGitRef r) := by
  cases r <;> (unfold plainGitRef; infer_instance)

/-- Example URL used to instantiate proved statements. -/
def exUrl : Url :=
  { scheme := ("http").data, host := ("example.com").data, path := [("bar").data],
    query := none, fragment := none }

/-- Example file URL (empty host) used to instantiate proved statements. -/
def exUrlFile : Url :=
  { scheme := ("file").data, host := [], path := [("tmp").data, ("reg").data],
    query := none, fragment := none }

/-- Example registry source id. -/
def exSidReg : SourceId := SourceId.forRegistry exUrl

/-- The example registry id pinned to revision `aaa`. -/
def exSidRegA : SourceId := exSidReg.with_precise (some ("aaa").data)

/-- The example registry id pinned to revision `bbb`. -/
def exSidRegB : SourceId := exSidReg.with_precise (some ("bbb").data)

/-- A registry state whose only source was loaded under pin `aaa` with the
`Normal` classification. -/
def exStPrecise : RegistryState :=
  { source_ids := [(exSidRegA, exSidRegA, RegKind.normal)], locked := [], overrides := [] }

/-- Example package id. -/
def exPid : PackageId :=
  { name := ("foo").data, version := ⟨1, 0, 0⟩, source_id := exSidReg }

/-- Example summary. -/
def exSummary : Summary :=
  { package_id := exPid, dependencies := [], features := [], checksum := none }

/-- Example manifest. -/
def exManifest1 : Manifest :=
  { summary := exSummary, targets := [], links := none, exclude := [],
    includePatterns := [], publish := true }

/-- A second example manifest with the same summary but different targets,
links, patterns, and publish flag. -/
def exManifest2 : Manifest :=
  { summary := exSummary, targets := [⟨("t").data, ("s").data⟩],
    links := some ("z").data, exclude := [("e").data],
    includePatterns := [("i").data], publish := false }

/-- Example package built from the first manifest. -/
def exPkg1 : Package := { manifest := exManifest1, manifest_path := ("p1").data }

/-- Example package built from the second manifest. -/
def exPkg2 : Package := { manifest := exManifest2, manifest_path := ("p2").data }

/-- Head character is alphabetic. -/
def headAlpha : Str → Prop
  | [] => False
  | c :: _ => c.isAlpha = true

instance (s : Str) : Decidable (headAlpha s) := by
  cases s <;> (unfold headAlpha; infer_instance)

/-- Names made only of the characters `PackageIdSpec::parse` accepts, and
nonempty. -/
def plainName (n : Str) : Prop := n ≠ [] ∧ ∀ c ∈ n, nameOkChar c = true

instance (n : Str) : Decidable (plainName n) := by
  unfold plainName; infer_instance

/-- Example craft-scheme URL. -/
def exUrlCraft : Url :=
  { scheme := ("craft").data, host := ("chest.io").data, path := [("foo").data],
    query := none, fragment := none }

/-- The C6 counterexample spec: a name starting with a digit, differing from
the last path segment of its URL, with no version. -/
def exSpecBad : PackageIdSpec :=
  { name := ("2foo").data, version := none, url := some exUrl }

/-- Example spec used to instantiate the amended C6 round trip. -/
def exSpecW : PackageIdSpec :=
  { name := ("qux").data, version := some ⟨2, 0, 0⟩, url := some exUrlCraft }

/-- A pattern matching every path. -/
def exPatTrue : Str → Bool := fun _ => true

/-- A pattern matching no path. -/
def exPatFalse : Str → Bool := fun _ => false

/-- The empty registry state. -/
def exStEmpty : RegistryState := { source_ids := [], locked := [], overrides := [] }

/-- Example dependency on `foo` from the example registry source. -/
def exDep : Dependency :=
  { name := ("foo").data, req := VersionReq.gte ⟨1, 0, 0⟩, source_id := exSidReg,
    kind := DepKind.normal, optionalDep := false, default_features := true,
    features := [], platform := none, is_transitive := true }

/-- Package id of the example override summary. -/
def exCandPid : PackageId :=
  { name := ("foo").data, version := ⟨1, 0, 0⟩, source_id := SourceId.forPath exUrlFile }

/-- Example override summary (no dependencies). -/
def exCand : Summary :=
  { package_id := exCandPid, dependencies := [], features := [], checksum := none }

/-- A registry state whose lock map holds the example package id with no
locked dependencies. -/
def exStLock : RegistryState :=
  { source_ids := [],
    locked := [(exSidReg, [(("foo").data, [(exPid, [])])])],
    overrides := [] }

/-- A second example URL. -/
def exUrlA : Url :=
  { scheme := ("http").data, host := ("a.io").data, path := [("x").data],
    query := none, fragment := none }

/-- Source replacement configuration named `o`, pointing at `a`. -/
def exCfgO : SourceConfig := { id := exSidReg, replace_with := some ("a").data }

/-- Configuration `a` resolving to a local registry (checksums supported). -/
def exCfgLocal : SourceConfig :=
  { id := SourceId.forLocalRegistry exUrlFile, replace_with := none }

/-- Configuration `a` resolving to a path source (no checksum support). -/
def exCfgPath : SourceConfig :=
  { id := SourceId.forPath exUrlFile, replace_with := none }

/-- A replacement map sending the example registry to a local registry. -/
def exScmGood : SourceConfigMap :=
  { cfgs := [(("o").data, exCfgO), (("a").data, exCfgLocal)],
    id2name := [(exSidReg, ("o").data)] }

/-- A replacement map sending the example registry to a path source. -/
def exScmBad : SourceConfigMap :=
  { cfgs := [(("o").data, exCfgO), (("a").data, exCfgPath)],
    id2name := [(exSidReg, ("o").data)] }

/-- A replacement map whose chain from `o` enters the cycle `a -> b -> a`
that never returns to `o`. -/
def exScmCyc : SourceConfigMap :=
  { cfgs := [(("o").data, exCfgO),
             (("a").data, { id := SourceId.forRegistry exUrlA,
                            replace_with := some ("b").data }),
             (("b").data, { id := SourceId.forDirectory exUrlA,
                            replace_with := some ("a").data })],
    id2name := [(exSidReg, ("o").data)] }

/-- A replacement map whose chain from `o` returns to `o` itself. -/
def exScmCycO : SourceConfigMap :=
  { cfgs := [(("o").data, exCfgO),
             (("a").data, { id := SourceId.forRegistry exUrlA,
                            replace_with := some ("o").data })],
    id2name := [(exSidReg, ("o").data)] }

/-- Example summary on the example package id with one dependency. -/
def exSummaryDep : Summary :=
  { package_id := exPid, dependencies := [exDep], features := [], checksum := none }

theorem splitOnFirst_not_mem (c : Char) (s : Str) (h : c ∉ s) :
    splitOnFirst c s = none := by
  induction s with
  | nil => rfl
  | cons a rest ih =>
    simp only [List.mem_cons, not_or] at h
    simp [splitOnFirst, Ne.symm h.1, ih h.2]

theorem splitOnFirst_append (c : Char) (a b : Str) (h : c ∉ a) :
    splitOnFirst c (a ++ c :: b) = some (a, b) := by
  induction a with
  | nil => simp [splitOnFirst]
  | cons x xs ih =>
    simp only [List.mem_cons, not_or] at h
    simp [splitOnFirst, Ne.symm h.1, ih h.2]

theorem splitAllAux_no_sep (c : Char) (s acc : Str) (h : c ∉ s) :
    splitAllAux c s acc = [acc.reverse ++ s] := by
  induction s generalizing acc with
  | nil => simp [splitAllAux]
  | cons a rest ih =>
    simp only [List.mem_cons, not_or] at h
    simp [splitAllAux, Ne.symm h.1, ih _ h.2]

theorem splitAllAux_sep (c : Char) (a b acc : Str) (h : c ∉ a) :
    splitAllAux c (a ++ c :: b) acc = (acc.reverse ++ a) :: splitAllAux c b [] := by
  induction a generalizing acc with
  | nil => simp [splitAllAux]
  | cons x xs ih =>
    simp only [List.mem_cons, not_or] at h
    simp [splitAllAux, Ne.symm h.1, ih _ h.2]

theorem splitAll_no_sep (c : Char) (s : Str) (h : c ∉ s) :
    splitAll c s = [s] := by
  simpa [splitAll] using splitAllAux_no_sep c s [] h

theorem splitAll_sep (c : Char) (a b : Str) (h : c ∉ a) :
    splitAll c (a ++ c :: b) = a :: splitAll c b := by
  simpa [splitAll] using splitAllAux_sep c a b [] h

theorem containsSeq_cons_mem (x : Char) (pat s : Str)
    (h : containsSeq (x :: pat) s = true) : x ∈ s := by
  induction s with
  | nil => simp [containsSeq] at h
  | cons a rest ih =>
    simp only [containsSeq, Bool.or_eq_true] at h
    rcases h with h | h
    · simp only [List.isPrefixOf, Bool.and_eq_true, beq_iff_eq] at h
      rw [h.1]
      exact List.mem_cons_self a rest
    · exact List.mem_cons_of_mem a (ih h)

theorem natToChars_digits (n : Nat) : ∀ c ∈ natToChars n, c.isDigit = true := by
  intro c hc
  by_cases h0 : n = 0
  · subst h0; simp [natToChars] at hc; subst hc; decide
  · simp only [natToChars, if_neg h0, List.mem_map, List.mem_reverse] at hc
    obtain ⟨d, hd, rfl⟩ := hc
    have hlt : d < 10 := Nat.digits_lt_base (by norm_num) hd
    interval_cases d <;> decide

theorem parseNatChars_natToChars (n : Nat) :
    parseNatChars (natToChars n) = some n := by
  by_cases h0 : n = 0
  · subst h0; decide
  · have hne : natToChars n ≠ [] := by
      simp only [natToChars, if_neg h0]
      simp [Nat.digits_ne_nil_iff_ne_zero, h0]
    have hall : (natToChars n).all Char.isDigit = true := by
      rw [List.all_eq_true]; intro c hc; exact natToChars_digits n c hc
    rw [parseNatChars, if_neg hne, if_pos hall]
    simp only [natToChars, if_neg h0]
    rw [List.map_map, List.map_reverse, List.reverse_reverse]
    have hmap : (Nat.digits 10 n).map ((fun c => c.toNat - 48) ∘ (fun d => Char.ofNat (d + 48)))
        = (Nat.digits 10 n).map id := by
      apply List.map_congr_left
      intro d hd
      have hlt : d < 10 := Nat.digits_lt_base (by norm_num) hd
      interval_cases d <;> rfl
    rw [hmap, List.map_id, Nat.ofDigits_digits]

theorem takeWhile_all {p : Char → Bool} {xs : Str} (h : ∀ x ∈ xs, p x = true) :
    xs.takeWhile p = xs := by
  induction xs with
  | nil => rfl
  | cons a rest ih =>
    rw [List.takeWhile_cons, h a (List.mem_cons_self a rest)]
    exact congrArg (a :: ·) (ih (fun x hx => h x (List.mem_cons_of_mem a hx)))

theorem dropWhile_all {p : Char → Bool} {xs : Str} (h : ∀ x ∈ xs, p x = true) :
    xs.dropWhile p = [] := by
  induction xs with
  | nil => rfl
  | cons a rest ih =>
    rw [List.dropWhile_cons, h a (List.mem_cons_self a rest)]
    simpa using ih (fun x hx => h x (List.mem_cons_of_mem a hx))

theorem takeWhile_append_cons {p : Char → Bool} {xs : Str} (y : Char) (ys : Str)
    (h : ∀ x ∈ xs, p x = true) (hy : p y = false) :
    (xs ++ y :: ys).takeWhile p = xs := by
  induction xs with
  | nil => simp [List.takeWhile_cons, hy]
  | cons a rest ih =>
    rw [List.cons_append, List.takeWhile_cons, h a (List.mem_cons_self a rest)]
    exact congrArg (a :: ·) (ih (fun x hx => h x (List.mem_cons_of_mem a hx)))

theorem dropWhile_append_cons {p : Char → Bool} {xs : Str} (y : Char) (ys : Str)
    (h : ∀ x ∈ xs, p x = true) (hy : p y = false) :
    (xs ++ y :: ys).dropWhile p = y :: ys := by
  induction xs with
  | nil => simp [List.dropWhile_cons, hy]
  | cons a rest ih =>
    rw [List.cons_append, List.dropWhile_cons, h a (List.mem_cons_self a rest)]
    simpa using ih (fun x hx => h x (List.mem_cons_of_mem a hx))

theorem plainChar_spec {c : Char} (h : plainChar c = true) :
    c ≠ '/' ∧ c ≠ '?' ∧ c ≠ '#' ∧ c ≠ ':' ∧ c ≠ '+' ∧ c ≠ '&' ∧ c ≠ '=' := by
  refine ⟨?_, ?_, ?_, ?_, ?_, ?_, ?_⟩ <;> (rintro rfl; revert h; decide)

theorem isAlpha_spec {c : Char} (h : c.isAlpha = true) :
    c ≠ '/' ∧ c ≠ '?' ∧ c ≠ '#' ∧ c ≠ ':' ∧ c ≠ '+' ∧ c ≠ '&' ∧ c ≠ '=' :=
  plainChar_spec (by simp [plainChar, Char.isAlphanum, h])

theorem mem_pathChars {c : Char} {path : List Str} (h : c ∈ pathChars path) :
    c = '/' ∨ ∃ seg ∈ path, c ∈ seg := by
  induction path with
  | nil => simp [pathChars] at h
  | cons seg rest ih =>
    simp only [pathChars, List.mem_cons, List.mem_append] at h
    rcases h with h | h | h
    · exact Or.inl h
    · exact Or.inr ⟨seg, List.mem_cons_self seg rest, h⟩
    · rcases ih h with h | ⟨s, hs, hc⟩
      · exact Or.inl h
      · exact Or.inr ⟨s, List.mem_cons_of_mem seg hs, hc⟩

theorem splitAll_pathChars {seg : Str} {rest : List Str}
    (h : ∀ s ∈ seg :: rest, ∀ c ∈ s, plainChar c = true) :
    splitAll '/' (seg ++ pathChars rest) = seg :: rest := by
  induction rest generalizing seg with
  | nil =>
    rw [pathChars, List.append_nil]
    exact splitAll_no_sep '/' seg
      (fun hc => (plainChar_spec (h seg (List.mem_cons_self _ _) '/' hc)).1 rfl)
  | cons seg2 rest2 ih =>
    rw [pathChars, show seg ++ '/' :: (seg2 ++ pathChars rest2)
        = seg ++ '/' :: (seg2 ++ pathChars rest2) from rfl]
    rw [splitAll_sep '/' seg (seg2 ++ pathChars rest2)
      (fun hc => (plainChar_spec (h seg (List.mem_cons_self _ _) '/' hc)).1 rfl)]
    exact congrArg (seg :: ·)
      (ih (fun s hs => h s (List.mem_cons_of_mem seg hs)))

theorem parsePathQF_display {path : List Str} {q f : Option Str}
    (hpath : path ≠ []) (hseg : ∀ seg ∈ path, ∀ c ∈ seg, plainChar c = true)
    (hq : ∀ s, q = some s → '#' ∉ s) :
    parsePathQF (pathChars path ++ optPart '?' q ++ optPart '#' f) = (path, q, f) := by
  obtain ⟨seg, rest, rfl⟩ : ∃ seg rest, path = seg :: rest := by
    cases path with
    | nil => exact absurd rfl hpath
    | cons a b => exact ⟨a, b, rfl⟩
  have hpc : ∀ c ∈ pathChars (seg :: rest), (!pathEnd c) = true := by
    intro c hc
    rcases mem_pathChars hc with rfl | ⟨s, hs, hcs⟩
    · decide
    · have := plainChar_spec (hseg s hs c hcs)
      simp [pathEnd, this.2.1, this.2.2.1]
  have key : ∀ body : Str,
      pathChars (seg :: rest) = '/' :: body →
      splitAll '/' body = seg :: rest →
      parsePathQF (pathChars (seg :: rest) ++ optPart '?' q ++ optPart '#' f)
        = (seg :: rest, q, f) := by
    intro body hbody hsplit
    cases q with
    | some qs =>
      have hqs : '#' ∉ qs := hq qs rfl
      have hqall : ∀ c ∈ qs, (c != '#') = true := by
        intro c hc
        simp only [bne_iff_ne, ne_eq]
        rintro rfl; exact hqs hc
      cases f with
      | some fs =>
        have htake : ((pathChars (seg :: rest) ++ '?' :: (qs ++ '#' :: fs)).takeWhile
            (fun c => !pathEnd c)) = pathChars (seg :: rest) :=
          takeWhile_append_cons _ _ hpc (by decide)
        have hdrop : ((pathChars (seg :: rest) ++ '?' :: (qs ++ '#' :: fs)).dropWhile
            (fun c => !pathEnd c)) = '?' :: (qs ++ '#' :: fs) :=
          dropWhile_append_cons _ _ hpc (by decide)
        have htq : ((qs ++ '#' :: fs).takeWhile (fun c => c != '#')) = qs :=
          takeWhile_append_cons _ _ hqall (by decide)
        have hdq : ((qs ++ '#' :: fs).dropWhile (fun c => c != '#')) = '#' :: fs :=
          dropWhile_append_cons _ _ hqall (by decide)
        simp only [parsePathQF, optPart, List.append_assoc, List.cons_append]
        rw [htake, hdrop, hbody]
        simp [hsplit, htq, hdq]
      | none =>
        have htake : ((pathChars (seg :: rest) ++ '?' :: (qs ++ [])).takeWhile
            (fun c => !pathEnd c)) = pathChars (seg :: rest) :=
          takeWhile_append_cons _ _ hpc (by decide)
        have hdrop : ((pathChars (seg :: rest) ++ '?' :: (qs ++ [])).dropWhile
            (fun c => !pathEnd c)) = '?' :: (qs ++ []) :=
          dropWhile_append_cons _ _ hpc (by decide)
        have htq : (qs.takeWhile (fun c => c != '#')) = qs := takeWhile_all hqall
        have hdq : (qs.dropWhile (fun c => c != '#')) = [] := dropWhile_all hqall
        simp only [parsePathQF, optPart, List.append_assoc, List.cons_append]
        rw [htake, hdrop, hbody]
        simp [hsplit, htq, hdq]
    | none =>
      cases f with
      | some fs =>
        have htake : ((pathChars (seg :: rest) ++ '#' :: fs).takeWhile
            (fun c => !pathEnd c)) = pathChars (seg :: rest) :=
          takeWhile_append_cons _ _ hpc (by decide)
        have hdrop : ((pathChars (seg :: rest) ++ '#' :: fs).dropWhile
            (fun c => !pathEnd c)) = '#' :: fs :=
          dropWhile_append_cons _ _ hpc (by decide)
        simp only [parsePathQF, optPart, List.append_assoc, List.nil_append,
          List.cons_append, List.append_nil]
        rw [htake, hdrop, hbody]
        simp [hsplit]
      | none =>
        have htake : ((pathChars (seg :: rest)).takeWhile (fun c => !pathEnd c))
            = pathChars (seg :: rest) := takeWhile_all hpc
        have hdrop : ((pathChars (seg :: rest)).dropWhile (fun c => !pathEnd c))
            = [] := dropWhile_all hpc
        simp only [parsePathQF, optPart, List.append_nil]
        rw [htake, hdrop, hbody]
        simp [hsplit]
  exact key (seg ++ pathChars rest) rfl (splitAll_pathChars hseg)

theorem parseUrl_display_ext (u : Url) (hw : wellFormedUrl u) (q f : Option Str)
    (hq : ∀ s, q = some s → '#' ∉ s) :
    parseUrlChars (u.display ++ optPart '?' q ++ optPart '#' f)
      = .ok { u with query := q, fragment := f } := by
  obtain ⟨hs0, hsA, hhost, hpath, hseg, hqn, hfn⟩ := hw
  have hbody : u.display ++ optPart '?' q ++ optPart '#' f
      = u.scheme ++ ':' :: ('/' :: '/' :: (u.host ++ pathChars u.path
          ++ optPart '?' q ++ optPart '#' f)) := by
    simp [Url.display, hqn, hfn, optPart, List.append_assoc]
  rw [hbody]
  have hsplit := splitOnFirst_append ':' u.scheme
    ('/' :: '/' :: (u.host ++ pathChars u.path ++ optPart '?' q ++ optPart '#' f))
    (fun hc => (isAlpha_spec (hsA _ hc)).2.2.2.1 rfl)
  obtain ⟨pseg, prest, hpeq⟩ : ∃ pseg prest, u.path = pseg :: prest := by
    cases hp : u.path with
    | nil => exact absurd hp hpath
    | cons a b => exact ⟨a, b, rfl⟩
  have hpc0 : pathChars u.path = '/' :: (pseg ++ pathChars prest) := by
    rw [hpeq]; rfl
  have hhostAll : ∀ c ∈ u.host, (!hostEnd c) = true := by
    intro c hc
    have := plainChar_spec (hhost c hc)
    simp [hostEnd, this.1, this.2.1, this.2.2.1]
  have hhtake : ((u.host ++ pathChars u.path ++ optPart '?' q
      ++ optPart '#' f).takeWhile (fun c => !hostEnd c)) = u.host := by
    rw [hpc0, List.append_assoc, List.append_assoc, List.cons_append]
    exact takeWhile_append_cons _ _ hhostAll (by decide)
  have hhdrop : ((u.host ++ pathChars u.path ++ optPart '?' q
      ++ optPart '#' f).dropWhile (fun c => !hostEnd c))
      = pathChars u.path ++ optPart '?' q ++ optPart '#' f := by
    conv_lhs => rw [hpc0, List.append_assoc, List.append_assoc, List.cons_append]
    rw [dropWhile_append_cons _ _ hhostAll (by decide)]
    rw [hpc0]
    simp [List.append_assoc]
  have hpqf : parsePathQF (pathChars u.path ++ optPart '?' q ++ optPart '#' f)
      = (u.path, q, f) := parsePathQF_display hpath hseg hq
  rw [parseUrlChars, hsplit]
  simp only [hhtake, hhdrop, hpqf]

theorem isDigit_not_isAlpha {c : Char} (h : c.isDigit = true) : c.isAlpha = false := by
  simp only [Char.isDigit, Char.isAlpha, Char.isLower, Char.isUpper,
    Bool.and_eq_true, Bool.or_eq_false_iff, Bool.and_eq_false_iff,
    decide_eq_true_eq, decide_eq_false_iff_not, not_le] at *
  obtain ⟨h1, h2⟩ := h
  have h2n : c.val.toNat ≤ 57 := h2
  refine ⟨Or.inl (fun hh => ?_), Or.inl (fun hh => ?_)⟩
  · have hn : (65 : Nat) ≤ c.val.toNat := hh
    omega
  · have hn : (97 : Nat) ≤ c.val.toNat := hh
    omega

theorem isDigit_ne {c d : Char} (h : c.isDigit = true) (hd : d.isDigit = false) :
    c ≠ d := by
  rintro rfl; rw [h] at hd; exact Bool.noConfusion hd

theorem semVersion_display_chars (v : SemVersion) :
    ∀ c ∈ v.display, c.isDigit = true ∨ c = '.' := by
  intro c hc
  rw [show v.display = natToChars v.major
      ++ '.' :: (natToChars v.minor ++ '.' :: natToChars v.patch) by
    simp [SemVersion.display]] at hc
  rcases List.mem_append.1 hc with h | h
  · exact Or.inl (natToChars_digits _ c h)
  · rcases List.mem_cons.1 h with rfl | h2
    · exact Or.inr rfl
    · rcases List.mem_append.1 h2 with h3 | h3
      · exact Or.inl (natToChars_digits _ c h3)
      · rcases List.mem_cons.1 h3 with rfl | h4
        · exact Or.inr rfl
        · exact Or.inl (natToChars_digits _ c h4)

theorem semVersion_parse_display (v : SemVersion) :
    SemVersion.parse v.display = some v := by
  have hM : '.' ∉ natToChars v.major :=
    fun hc => isDigit_ne (natToChars_digits _ _ hc) (by decide) rfl
  have hm : '.' ∉ natToChars v.minor :=
    fun hc => isDigit_ne (natToChars_digits _ _ hc) (by decide) rfl
  have hp : '.' ∉ natToChars v.patch :=
    fun hc => isDigit_ne (natToChars_digits _ _ hc) (by decide) rfl
  have hshape : v.display
      = natToChars v.major ++ '.' :: (natToChars v.minor ++ '.' :: natToChars v.patch) := by
    simp [SemVersion.display]
  rw [SemVersion.parse, hshape, splitAll_sep _ _ _ hM, splitAll_sep _ _ _ hm,
    splitAll_no_sep _ _ hp]
  simp [parseNatChars_natToChars]

theorem sourceIdEq_refl (a : SourceId) : sourceIdEq a a = true := by
  simp [sourceIdEq]

theorem sourceIdEq_with_precise_right (a b : SourceId) (p : Option Str) :
    sourceIdEq a (b.with_precise p) = sourceIdEq a b := rfl

theorem sourceIdEq_with_precise_left (a b : SourceId) (p : Option Str) :
    sourceIdEq (a.with_precise p) b = sourceIdEq a b := rfl

theorem sourceIdEq_iff (a b : SourceId) : sourceIdEq a b = true ↔
    (a.kind = b.kind ∧ (a.url = b.url ∨
      ((∃ r, a.kind = SourceKind.git r) ∧ a.canonical_url = b.canonical_url))) := by
  rcases a with ⟨au, ac, ak, ap⟩
  rcases b with ⟨bu, bc, bk, bp⟩
  cases ak <;> cases bk <;> simp_all [sourceIdEq]

theorem sourceIdEq_symm {a b : SourceId} (h : sourceIdEq a b = true) :
    sourceIdEq b a = true := by
  rw [sourceIdEq_iff] at *
  obtain ⟨hk, h2⟩ := h
  refine ⟨hk.symm, ?_⟩
  rcases h2 with hu | ⟨⟨r, hr⟩, hc⟩
  · exact Or.inl hu.symm
  · exact Or.inr ⟨⟨r, hk.symm.trans hr⟩, hc.symm⟩

theorem sourceIdEq_canonical {a b : SourceId} (hwa : SourceId.wf a)
    (hwb : SourceId.wf b) (h : sourceIdEq a b = true) :
    a.canonical_url = b.canonical_url := by
  rw [sourceIdEq_iff] at h
  rcases h.2 with hu | ⟨_, hc⟩
  · rw [hwa, hwb, hu]
  · exact hc

theorem sourceIdEq_trans {a b c : SourceId} (hwa : SourceId.wf a)
    (hwb : SourceId.wf b) (hwc : SourceId.wf c)
    (h1 : sourceIdEq a b = true) (h2 : sourceIdEq b c = true) :
    sourceIdEq a c = true := by
  have hc1 := sourceIdEq_canonical hwa hwb h1
  have hc2 := sourceIdEq_canonical hwb hwc h2
  rw [sourceIdEq_iff] at *
  obtain ⟨hk1, hr1⟩ := h1
  obtain ⟨hk2, hr2⟩ := h2
  refine ⟨hk1.trans hk2, ?_⟩
  rcases hr1 with hu1 | ⟨hg, _⟩
  · rcases hr2 with hu2 | ⟨hg, _⟩
    · exact Or.inl (hu1.trans hu2)
    · exact Or.inr ⟨⟨hg.choose, hk1.trans hg.choose_spec⟩, hc1.trans hc2⟩
  · exact Or.inr ⟨hg, hc1.trans hc2⟩

theorem sourceIdEq_hash {a b : SourceId} (hwa : SourceId.wf a)
    (hwb : SourceId.wf b) (h : sourceIdEq a b = true) :
    sourceIdHash a = sourceIdHash b := by
  have hcan := sourceIdEq_canonical hwa hwb h
  rw [sourceIdEq_iff] at h
  obtain ⟨hk, hrest⟩ := h
  unfold sourceIdHash
  rw [hk]
  cases hbk : b.kind with
  | git r => simp [hcan]
  | path =>
    rcases hrest with hu | ⟨⟨r, hr⟩, _⟩
    · simp [hu]
    · rw [hk, hbk] at hr; cases hr
  | registry =>
    rcases hrest with hu | ⟨⟨r, hr⟩, _⟩
    · simp [hu]
    · rw [hk, hbk] at hr; cases hr
  | localRegistry =>
    rcases hrest with hu | ⟨⟨r, hr⟩, _⟩
    · simp [hu]
    · rw [hk, hbk] at hr; cases hr
  | directory =>
    rcases hrest with hu | ⟨⟨r, hr⟩, _⟩
    · simp [hu]
    · rw [hk, hbk] at hr; cases hr

theorem url_eta {u : Url} (hq : u.query = none) (hf : u.fragment = none) :
    ({ u with query := none, fragment := none } : Url) = u := by
  cases u; simp_all

theorem parse_display_plain (u : Url) (hw : wellFormedUrl u) :
    parseUrlChars u.display = .ok u := by
  have h := parseUrl_display_ext u hw none none (by intro s hs; cases hs)
  simpa [optPart, url_eta hw.2.2.2.2.2.1 hw.2.2.2.2.2.2] using h

theorem fromUrl_path_prefix (rest : Str) :
    SourceId.fromUrl (("path").data ++ '+' :: rest)
      = match parseUrlChars rest with
        | .error e => .error e
        | .ok u => .ok (SourceId.new SourceKind.path u) := rfl

theorem fromUrl_git_prefix (rest : Str) :
    SourceId.fromUrl (("git").data ++ '+' :: rest)
      = match parseUrlChars rest with
        | .error e => .error e
        | .ok u => .ok ((SourceId.forGit { u with fragment := none, query := none }
            (gitRefOfPairs (queryPairs u.query))).with_precise u.fragment) := rfl

theorem fromUrl_registry_prefix (rest : Str) :
    SourceId.fromUrl (("registry").data ++ '+' :: rest)
      = match parseUrlChars rest with
        | .error e => .error e
        | .ok u => .ok ((SourceId.new SourceKind.registry u).with_precise
            (some ("locked").data)) := rfl

theorem fromUrl_localreg_prefix (rest : Str) :
    SourceId.fromUrl (("local-registry").data ++ '+' :: rest)
      = .error ("unsupported source protocol").data := rfl

theorem fromUrl_directory_prefix (rest : Str) :
    SourceId.fromUrl (("directory").data ++ '+' :: rest)
      = .error ("unsupported source protocol").data := rfl

theorem toRefString_no_hash {r : GitReference} (hr : plainGitRef r) :
    ∀ s, r.toRefString = some s → '#' ∉ s := by
  intro s hs hmem
  cases r with
  | branch b =>
    simp only [GitReference.toRefString] at hs
    by_cases hb : b = ['m', 'a', 's', 't', 'e', 'r']
    · rw [if_pos hb] at hs; cases hs
    · rw [if_neg hb] at hs
      cases hs
      rcases List.mem_append.1 hmem with h | h
      · revert h; decide
      · exact absurd (plainChar_spec (hr '#' h)).2.2.1 (fun k => k rfl)
  | tag b =>
    simp only [GitReference.toRefString] at hs
    cases hs
    rcases List.mem_append.1 hmem with h | h
    · revert h; decide
    · exact absurd (plainChar_spec (hr '#' h)).2.2.1 (fun k => k rfl)
  | rev b =>
    simp only [GitReference.toRefString] at hs
    cases hs
    rcases List.mem_append.1 hmem with h | h
    · revert h; decide
    · exact absurd (plainChar_spec (hr '#' h)).2.2.1 (fun k => k rfl)

theorem gitRefOfPairs_toRefString {r : GitReference} (hr : plainGitRef r) :
    gitRefOfPairs (queryPairs r.toRefString) = r := by
  cases r with
  | branch b =>
    by_cases hb : b = ['m', 'a', 's', 't', 'e', 'r']
    · subst hb; rfl
    · have hamp : '&' ∉ ("branch=").data ++ b := by
        intro hmem
        rcases List.mem_append.1 hmem with h | h
        · revert h; decide
        · exact absurd (plainChar_spec (hr '&' h)).2.2.2.2.2.1 (fun k => k rfl)
      have hts : GitReference.toRefString (GitReference.branch b)
          = some (("branch=").data ++ b) := by
        have e : GitReference.toRefString (GitReference.branch b)
            = if b = ['m', 'a', 's', 't', 'e', 'r'] then none
              else some (['b', 'r', 'a', 'n', 'c', 'h', '='] ++ b) := rfl
        rw [e, if_neg hb]
      have hsp : splitOnFirst '=' (("branch").data ++ '=' :: b)
          = some (("branch").data, b) := splitOnFirst_append _ _ _ (by decide)
      rw [hts]
      simp only [queryPairs]
      rw [splitAll_no_sep _ _ hamp]
      have e2 : ("branch=").data ++ b = ("branch").data ++ '=' :: b := rfl
      simp only [List.map, e2, hsp]
      rfl
  | tag b =>
    have hamp : '&' ∉ ("tag=").data ++ b := by
      intro hmem
      rcases List.mem_append.1 hmem with h | h
      · revert h; decide
      · exact absurd (plainChar_spec (hr '&' h)).2.2.2.2.2.1 (fun k => k rfl)
    have hsp : splitOnFirst '=' (("tag").data ++ '=' :: b)
        = some (("tag").data, b) := splitOnFirst_append _ _ _ (by decide)
    show gitRefOfPairs (queryPairs (some (("tag=").data ++ b))) = _
    simp only [queryPairs]
    rw [splitAll_no_sep _ _ hamp]
    have e2 : ("tag=").data ++ b = ("tag").data ++ '=' :: b := rfl
    simp only [List.map, e2, hsp]
    rfl
  | rev b =>
    have hamp : '&' ∉ ("rev=").data ++ b := by
      intro hmem
      rcases List.mem_append.1 hmem with h | h
      · revert h; decide
      · exact absurd (plainChar_spec (hr '&' h)).2.2.2.2.2.1 (fun k => k rfl)
    have hsp : splitOnFirst '=' (("rev").data ++ '=' :: b)
        = some (("rev").data, b) := splitOnFirst_append _ _ _ (by decide)
    show gitRefOfPairs (queryPairs (some (("rev=").data ++ b))) = _
    simp only [queryPairs]
    rw [splitAll_no_sep _ _ hamp]
    have e2 : ("rev=").data ++ b = ("rev").data ++ '=' :: b := rfl
    simp only [List.map, e2, hsp]
    rfl

theorem c4_git_roundtrip (u : Url) (hw : wellFormedUrl u) (r : GitReference)
    (p : Option Str) (hr : plainGitRef r) :
    SourceId.fromUrl (SourceId.toUrl ((SourceId.forGit u r).with_precise p))
      = .ok ((SourceId.forGit u r).with_precise p) := by
  have h1 : GitReference.urlRef r = optPart '?' r.toRefString := by
    unfold GitReference.urlRef
    cases h : r.toRefString <;> simp [optPart]
  have hparse := parseUrl_display_ext u hw r.toRefString p (toRefString_no_hash hr)
  have htu : SourceId.toUrl ((SourceId.forGit u r).with_precise p)
      = ("git").data ++ '+' :: (u.display ++ optPart '?' r.toRefString ++ optPart '#' p) := by
    cases p with
    | none =>
      rw [show SourceId.toUrl ((SourceId.forGit u r).with_precise none)
          = ("git+").data ++ u.display ++ GitReference.urlRef r ++ [] from rfl, h1]
      simp [optPart, List.append_assoc]
    | some pp =>
      rw [show SourceId.toUrl ((SourceId.forGit u r).with_precise (some pp))
          = ("git+").data ++ u.display ++ GitReference.urlRef r ++ ('#' :: pp) from rfl, h1]
      simp [optPart, List.append_assoc]
  rw [htu, fromUrl_git_prefix, hparse]
  simp only [url_eta hw.2.2.2.2.2.1 hw.2.2.2.2.2.2, gitRefOfPairs_toRefString hr]

/-- C4 (counterexample): a canonical directory source id does not survive the
`to_url`/`from_url` round trip; `from_url` rejects the `directory+` protocol
that `to_url` emitted. -/
theorem c4_counterexample :
    SourceId.fromUrl (SourceId.toUrl (SourceId.forDirectory exUrlFile))
      = .error ("unsupported source protocol").data := by decide

/-- C4 (amended): `from_url (to_url s)` recovers `s` for canonical path ids,
for canonical registry ids (up to source-id equality: the reparsed id carries
the `locked` pin, which equality ignores), and for canonical git ids whose
reference serialization is free of URL metacharacters, with any optional
precise revision; it fails for every local-registry and directory id, whose
protocols `from_url` does not understand.  URLs are canonical per
`wellFormedUrl`. -/
theorem c4_roundtrip_amended : ∀ u : Url, wellFormedUrl u →
    (SourceId.fromUrl (SourceId.toUrl (SourceId.forPath u)) = .ok (SourceId.forPath u)) ∧
    (∃ s, SourceId.fromUrl (SourceId.toUrl (SourceId.forRegistry u)) = .ok s ∧
      sourceIdEq s (SourceId.forRegistry u) = true) ∧
    (∀ (r : GitReference) (p : Option Str), plainGitRef r →
      SourceId.fromUrl (SourceId.toUrl ((SourceId.forGit u r).with_precise p))
        = .ok ((SourceId.forGit u r).with_precise p)) ∧
    (∀ v : Url,
      exceptIsOk (SourceId.fromUrl (SourceId.toUrl (SourceId.forLocalRegistry v))) = false) ∧
    (∀ v : Url,
      exceptIsOk (SourceId.fromUrl (SourceId.toUrl (SourceId.forDirectory v))) = false) := by
  intro u hw
  refine ⟨?_, ⟨(SourceId.new SourceKind.registry u).with_precise (some ("locked").data),
      ?_, ?_⟩, fun r p hr => c4_git_roundtrip u hw r p hr, fun v => ?_, fun v => ?_⟩
  · rw [show SourceId.toUrl (SourceId.forPath u) = ("path").data ++ '+' :: u.display from rfl,
      fromUrl_path_prefix, parse_display_plain u hw]
    rfl
  · rw [show SourceId.toUrl (SourceId.forRegistry u)
        = ("registry").data ++ '+' :: u.display from rfl,
      fromUrl_registry_prefix, parse_display_plain u hw]
  · rw [sourceIdEq_with_precise_left]
    exact sourceIdEq_refl _
  · rw [show SourceId.toUrl (SourceId.forLocalRegistry v)
        = ("local-registry").data ++ '+' :: v.display from rfl, fromUrl_localreg_prefix]
    rfl
  · rw [show SourceId.toUrl (SourceId.forDirectory v)
        = ("directory").data ++ '+' :: v.display from rfl, fromUrl_directory_prefix]
    rfl

/-- Witness for the amended C4 round trip at a concrete file URL, a concrete
git id with tag `v1` and precise pin `beef`, and the concrete registry id. -/
theorem c4_roundtrip_amended_witness :
    SourceId.fromUrl (SourceId.toUrl (SourceId.forPath exUrl)) = .ok (SourceId.forPath exUrl) ∧
    SourceId.fromUrl (SourceId.toUrl ((SourceId.forGit exUrl
        (GitReference.tag ("v1").data)).with_precise (some ("beef").data)))
      = .ok ((SourceId.forGit exUrl (GitReference.tag ("v1").data)).with_precise
          (some ("beef").data)) := by
  have h := c4_roundtrip_amended exUrl (by decide)
  exact ⟨h.1, h.2.2.1 _ _ (by decide)⟩

/-- C5: for every source id and any two optional precise values, the ids
produced by `with_precise` are equal under the custom source-id equality and
hash identically (neither consults `precise`), while the re-fetch decision of
`ensure_loaded` does consult it: with the example source loaded under pin
`aaa`, requesting pin `bbb` triggers an update and requesting pin `aaa` does
not. -/
theorem c5_with_precise_eq_hash : ∀ (s : SourceId) (p1 p2 : Option Str),
    sourceIdEq (s.with_precise p1) (s.with_precise p2) = true ∧
    sourceIdHash (s.with_precise p1) = sourceIdHash (s.with_precise p2) ∧
    (exStPrecise.ensure_loaded exSidRegB RegKind.normal).2 = true ∧
    (exStPrecise.ensure_loaded exSidRegA RegKind.normal).2 = false := by
  intro s p1 p2
  refine ⟨?_, rfl, by decide, by decide⟩
  rw [sourceIdEq_with_precise_left, sourceIdEq_with_precise_right]
  exact sourceIdEq_refl s

/-- C10: two packages (with constructor-built source ids) are equal and hash
identically exactly when their package ids are equal; package equality and
package hash are literally the equality and hash of the package ids, so the
manifest contents, targets, dependency lists and manifest path have no
effect. -/
theorem c10_package_eq_hash :
    ∀ a b : Package,
      SourceId.wf a.package_id.source_id → SourceId.wf b.package_id.source_id →
      ((packageEq a b = true ∧ packageHash a = packageHash b) ↔
        pkgIdEq a.package_id b.package_id = true) ∧
      packageEq a b = pkgIdEq a.package_id b.package_id ∧
      packageHash a = pkgIdHash a.package_id := by
  intro a b hwa hwb
  refine ⟨⟨fun h => h.1, fun h => ⟨h, ?_⟩⟩, rfl, rfl⟩
  have h' := h
  simp only [pkgIdEq, Bool.and_eq_true, decide_eq_true_eq] at h'
  obtain ⟨⟨hn, hv⟩, hs⟩ := h'
  have hh : pkgIdHash a.package_id = pkgIdHash b.package_id := by
    unfold pkgIdHash
    rw [hn, hv, sourceIdEq_hash hwa hwb hs]
  exact hh

/-- Witness for C10: two concrete packages with the same package id but
different manifests and manifest paths are equal and hash identically. -/
theorem c10_package_eq_hash_witness :
    packageEq exPkg1 exPkg2 = true ∧ packageHash exPkg1 = packageHash exPkg2 :=
  (c10_package_eq_hash exPkg1 exPkg2 (by decide) (by decide)).1.mpr (by decide)

theorem contains_true {s : Str} {c : Char} (h : c ∈ s) : s.contains c = true :=
  List.elem_eq_true_of_mem h

theorem contains_false {s : Str} {c : Char} (h : c ∉ s) : s.contains c = false := by
  rw [List.contains_eq_any_beq, List.any_eq_false]
  intro x hx
  simp only [beq_iff_eq]
  rintro rfl
  exact h hx

theorem nameOkChar_spec {c : Char} (h : nameOkChar c = true) :
    c ≠ '/' ∧ c ≠ ':' ∧ c ≠ '#' ∧ c ≠ '?' := by
  refine ⟨?_, ?_, ?_, ?_⟩ <;> (rintro rfl; revert h; decide)

theorem semVersion_display_head (v : SemVersion) :
    ∃ c cs, v.display = c :: cs ∧ c.isDigit = true := by
  have hne : natToChars v.major ≠ [] := by
    unfold natToChars
    by_cases h0 : v.major = 0
    · simp [h0]
    · simp [h0, Nat.digits_ne_nil_iff_ne_zero]
  obtain ⟨c, cs, hc⟩ := List.exists_cons_of_ne_nil hne
  refine ⟨c, cs ++ '.' :: natToChars v.minor ++ '.' :: natToChars v.patch, ?_, ?_⟩
  · rw [show v.display = natToChars v.major
        ++ ('.' :: natToChars v.minor ++ '.' :: natToChars v.patch) from by
      simp [SemVersion.display], hc]
    simp
  · exact natToChars_digits _ c (by rw [hc]; exact List.mem_cons_self _ _)

theorem semVersion_display_no_colon (v : SemVersion) : ':' ∉ v.display := by
  intro h
  rcases semVersion_display_chars v ':' h with hd | hd
  · exact absurd (isDigit_ne hd (by decide)) (fun k => k rfl)
  · cases hd

theorem semVersion_display_no_slash (v : SemVersion) : '/' ∉ v.display := by
  intro h
  rcases semVersion_display_chars v '/' h with hd | hd
  · exact absurd (isDigit_ne hd (by decide)) (fun k => k rfl)
  · cases hd

theorem unique_sep {c : Char} : ∀ {a p b q : Str}, a ++ c :: b = p ++ c :: q →
    c ∉ a → c ∉ b → p = a ∧ q = b := by
  intro a
  induction a with
  | nil =>
    intro p b q h ha hb
    cases p with
    | nil =>
      simp only [List.nil_append, List.cons.injEq] at h
      exact ⟨rfl, h.2.symm⟩
    | cons x p2 =>
      simp only [List.nil_append, List.cons_append, List.cons.injEq] at h
      exact absurd (h.2 ▸ List.mem_append_right p2 (h.1 ▸ List.mem_cons_self c q)) hb
  | cons x a2 ih =>
    intro p b q h ha hb
    cases p with
    | nil =>
      simp only [List.cons_append, List.nil_append, List.cons.injEq] at h
      exact absurd (h.1 ▸ List.mem_cons_self x a2) ha
    | cons y p2 =>
      simp only [List.cons_append, List.cons.injEq] at h
      have := ih h.2 (fun k => ha (List.mem_cons_of_mem x k)) hb
      exact ⟨by rw [h.1, this.1], this.2⟩

theorem containsSeq_infix_eq (pat : Str) :
    ∀ s : Str, containsSeq pat s = true ↔ ∃ pre suf, s = pre ++ pat ++ suf := by
  intro s
  induction s with
  | nil =>
    simp only [containsSeq, decide_eq_true_eq]
    constructor
    · rintro rfl; exact ⟨[], [], rfl⟩
    · rintro ⟨pre, suf, h⟩
      rcases List.append_eq_nil.1 (List.append_eq_nil.1 h.symm).1 with ⟨-, h2⟩
      exact h2
  | cons a rest ih =>
    simp only [containsSeq, Bool.or_eq_true]
    constructor
    · rintro (h | h)
      · obtain ⟨t, ht⟩ : pat <+: a :: rest := by
          exact List.isPrefixOf_iff_prefix.1 h
        exact ⟨[], t, by rw [List.nil_append, ht]⟩
      · obtain ⟨pre, suf, hps⟩ := ih.1 h
        exact ⟨a :: pre, suf, by rw [hps]; rfl⟩
    · rintro ⟨pre, suf, hps⟩
      cases pre with
      | nil =>
        left
        rw [List.nil_append] at hps
        exact List.isPrefixOf_iff_prefix.2 ⟨suf, hps.symm⟩
      | cons x pre2 =>
        right
        simp only [List.cons_append, List.cons.injEq] at hps
        exact ih.2 ⟨pre2, suf, hps.2⟩

theorem parseUrlChars_no_colon {s : Str} (h : ':' ∉ s) :
    parseUrlChars s = .error ("relative URL without a base").data := by
  unfold parseUrlChars
  rw [splitOnFirst_not_mem _ _ h]

theorem parseUrlChars_bad_rest (A : Str) (hA : ':' ∉ A) (c : Char) (hc : c ≠ '/')
    (rest : Str) :
    parseUrlChars (A ++ ':' :: c :: rest) = .error ("relative URL without a base").data := by
  unfold parseUrlChars
  rw [splitOnFirst_append _ _ _ hA]
  split
  · rename_i heq
    simp only [Option.some.injEq, Prod.mk.injEq, List.cons.injEq] at heq
    simp_all
  · rfl

theorem url_eta_frag {u : Url} (hf : u.fragment = none) :
    ({ u with fragment := none } : Url) = u := by
  cases u; simp_all

theorem url_eta_all {u : Url} (hq : u.query = none) (hf : u.fragment = none) :
    ({ scheme := u.scheme, host := u.host, path := u.path, query := none,
       fragment := none } : Url) = u := by
  cases u; simp_all

theorem fromUrlModel_compute (u : Url) (hq : u.query = none) (hf : u.fragment = none)
    (l : Str) (hl : u.path.getLast? = some l) :
    (PackageIdSpec.fromUrlModel { u with fragment := none }
      = .ok { name := l, version := none, url := some u }) ∧
    (∀ ver : SemVersion,
      PackageIdSpec.fromUrlModel { u with fragment := some (SemVersion.display ver) }
        = .ok { name := l, version := some ver, url := some u }) ∧
    (∀ nm : Str, (∀ c ∈ nm, nameOkChar c = true) → headAlpha nm →
      PackageIdSpec.fromUrlModel { u with fragment := some nm }
        = .ok { name := nm, version := none, url := some u }) ∧
    (∀ (nm : Str) (ver : SemVersion), (∀ c ∈ nm, nameOkChar c = true) →
      PackageIdSpec.fromUrlModel { u with fragment := some (nm ++ ':' :: SemVersion.display ver) }
        = .ok { name := nm, version := some ver, url := some u }) := by
  refine ⟨?_, fun ver => ?_, fun nm hnm hha => ?_, fun nm ver hnm => ?_⟩
  · unfold PackageIdSpec.fromUrlModel
    simp only [hq, Option.isSome_none, Bool.false_eq_true, if_false, hl]
    rw [url_eta_all hq hf]
  · obtain ⟨c, cs, hdisp, hdig⟩ := semVersion_display_head ver
    have hp2 : SemVersion.parse (c :: cs) = some ver := by
      rw [← hdisp]; exact semVersion_parse_display ver
    have hnc : ':' ∉ c :: cs := by rw [← hdisp]; exact semVersion_display_no_colon ver
    unfold PackageIdSpec.fromUrlModel
    rw [hdisp]
    simp only [hq, Option.isSome_none, Bool.false_eq_true, if_false, hl]
    rw [splitOnFirst_not_mem _ _ hnc]
    simp only [isDigit_not_isAlpha hdig, Bool.false_eq_true, if_false, hp2]
    rw [url_eta_all hq hf]
  · unfold PackageIdSpec.fromUrlModel
    simp only [hq, Option.isSome_none, Bool.false_eq_true, if_false, hl]
    have hnc : ':' ∉ nm := fun k =>
      absurd (nameOkChar_spec (hnm ':' k)).2.1 (fun e => e rfl)
    rw [splitOnFirst_not_mem _ _ hnc]
    cases nm with
    | nil => cases hha
    | cons c cs =>
      have hca : c.isAlpha = true := hha
      simp only [hca, if_true]
      rw [url_eta_all hq hf]
  · unfold PackageIdSpec.fromUrlModel
    simp only [hq, Option.isSome_none, Bool.false_eq_true, if_false, hl]
    have hnc : ':' ∉ nm := fun k =>
      absurd (nameOkChar_spec (hnm ':' k)).2.1 (fun e => e rfl)
    rw [splitOnFirst_append _ _ _ hnc]
    simp only [semVersion_parse_display]
    rw [url_eta_all hq hf]

theorem c6_plain_branch (nm : Str) (hok : ∀ c ∈ nm, nameOkChar c = true) :
    ∀ verO : Option SemVersion,
      PackageIdSpec.parse (PackageIdSpec.display { name := nm, version := verO, url := none })
        = .ok { name := nm, version := verO, url := none } := by
  intro verO
  have hslash : ∀ c ∈ nm, c ≠ '/' := fun c hc => (nameOkChar_spec (hok c hc)).1
  have hcolon : ':' ∉ nm := fun k =>
    absurd (nameOkChar_spec (hok ':' k)).2.1 (fun e => e rfl)
  have hall : nm.all nameOkChar = true := List.all_eq_true.2 hok
  cases verO with
  | none =>
    have hdisp : PackageIdSpec.display { name := nm, version := none, url := none }
        = nm := by
      simp [PackageIdSpec.display]
    rw [hdisp]
    have hnos : nm.contains '/' = false :=
      contains_false (fun k => hslash '/' k rfl)
    unfold PackageIdSpec.parse
    simp only [hnos, Bool.false_eq_true, if_false]
    unfold parsePlainSpec
    rw [splitOnFirst_not_mem _ _ hcolon]
    simp only [hall, if_true]
  | some ver =>
    have hdisp : PackageIdSpec.display { name := nm, version := some ver, url := none }
        = nm ++ ':' :: ver.display := by
      simp [PackageIdSpec.display]
    rw [hdisp]
    have hnos : (nm ++ ':' :: ver.display).contains '/' = false := by
      refine contains_false (fun k => ?_)
      rcases List.mem_append.1 k with h | h
      · exact hslash '/' h rfl
      · rcases List.mem_cons.1 h with h2 | h2
        · cases h2
        · exact semVersion_display_no_slash ver h2
    unfold PackageIdSpec.parse
    simp only [hnos, Bool.false_eq_true, if_false]
    unfold parsePlainSpec
    rw [splitOnFirst_append _ _ _ hcolon]
    simp only [semVersion_parse_display, hall, if_true]

theorem slash_mem_display (u : Url) : '/' ∈ u.display := by
  unfold Url.display
  refine List.mem_append.2 (Or.inl (List.mem_append.2 (Or.inl ?_)))
  exact List.mem_append.2 (Or.inr (by simp))

theorem url_eta_query {u : Url} (hq : u.query = none) (f : Option Str) :
    ({ u with query := none, fragment := f } : Url) = { u with fragment := f } := by
  cases u; simp_all

theorem parseUrl_display_frag (u : Url) (hw : wellFormedUrl u) (f : Option Str) :
    parseUrlChars (u.display ++ optPart '#' f) = .ok { u with fragment := f } := by
  have h := parseUrl_display_ext u hw none f (by intro s hs; cases hs)
  rw [show u.display ++ optPart '?' none ++ optPart '#' f
      = u.display ++ optPart '#' f from by simp [optPart]] at h
  rw [h, url_eta_query hw.2.2.2.2.2.1 f]

theorem c6_url_noncraft (u : Url) (hw : wellFormedUrl u) (hncr : ¬ u.scheme = ("craft").data)
    (nm : Str) (hok : ∀ c ∈ nm, nameOkChar c = true) (_hne : nm ≠ [])
    (verO : Option SemVersion) (l : Str) (hl : u.path.getLast? = some l)
    (hcase : l = nm ∨ verO.isSome = true ∨ headAlpha nm) :
    PackageIdSpec.parse (PackageIdSpec.display { name := nm, version := verO, url := some u })
      = .ok { name := nm, version := verO, url := some u } := by
  have hmodel := fromUrlModel_compute u hw.2.2.2.2.2.1 hw.2.2.2.2.2.2 l hl
  by_cases hln : l = nm
  · cases verO with
    | none =>
      have hdisp : PackageIdSpec.display { name := nm, version := none, url := some u }
          = u.display ++ optPart '#' none := by
        simp [PackageIdSpec.display, hl, hln, hncr, optPart]
      rw [hdisp]
      unfold PackageIdSpec.parse
      rw [contains_true (List.mem_append.2 (Or.inl (slash_mem_display u)))]
      simp only [if_true]
      rw [parseUrl_display_frag u hw none]
      show PackageIdSpec.fromUrlModel { u with fragment := none } = _
      rw [hmodel.1, hln]
    | some ver =>
      have hdisp : PackageIdSpec.display { name := nm, version := some ver, url := some u }
          = u.display ++ optPart '#' (some ver.display) := by
        simp [PackageIdSpec.display, hl, hln, hncr, optPart]
      rw [hdisp]
      unfold PackageIdSpec.parse
      rw [contains_true (List.mem_append.2 (Or.inl (slash_mem_display u)))]
      simp only [if_true]
      rw [parseUrl_display_frag u hw (some ver.display)]
      show PackageIdSpec.fromUrlModel { u with fragment := some ver.display } = _
      rw [hmodel.2.1 ver, hln]
  · have hfrag : ∀ sep : Str, u.display ++ '#' :: nm ++ sep
        = u.display ++ optPart '#' (some (nm ++ sep)) := by
      intro sep
      simp [optPart]
    cases verO with
    | none =>
      rcases hcase with h | h | h
      · exact absurd h hln
      · cases h
      · have hdisp : PackageIdSpec.display { name := nm, version := none, url := some u }
            = u.display ++ optPart '#' (some nm) := by
          simp only [PackageIdSpec.display, hl, hncr, if_false]
          simp [hln, Ne.symm, optPart]
        rw [hdisp]
        unfold PackageIdSpec.parse
        rw [contains_true (List.mem_append.2 (Or.inl (slash_mem_display u)))]
        simp only [if_true]
        rw [parseUrl_display_frag u hw (some nm)]
        show PackageIdSpec.fromUrlModel { u with fragment := some nm } = _
        rw [hmodel.2.2.1 nm hok h]
    | some ver =>
      have hdisp : PackageIdSpec.display { name := nm, version := some ver, url := some u }
          = u.display ++ optPart '#' (some (nm ++ ':' :: ver.display)) := by
        simp only [PackageIdSpec.display, hl, hncr, if_false]
        simp [hln, Ne.symm, optPart]
      rw [hdisp]
      unfold PackageIdSpec.parse
      rw [contains_true (List.mem_append.2 (Or.inl (slash_mem_display u)))]
      simp only [if_true]
      rw [parseUrl_display_frag u hw (some (nm ++ ':' :: ver.display))]
      show PackageIdSpec.fromUrlModel { u with fragment := some (nm ++ ':' :: ver.display) } = _
      rw [hmodel.2.2.2 nm ver hok]

theorem colon_not_mem_base (u : Url) (hw : wellFormedUrl u) :
    ':' ∉ u.host ++ pathChars u.path := by
  intro k
  rcases List.mem_append.1 k with h | h
  · exact absurd (plainChar_spec (hw.2.2.1 ':' h)).2.2.2.1 (fun e => e rfl)
  · rcases mem_pathChars h with h2 | ⟨s, hs, hcs⟩
    · cases h2
    · exact absurd (plainChar_spec (hw.2.2.2.2.1 s hs ':' hcs)).2.2.2.1 (fun e => e rfl)

theorem slash_mem_base (u : Url) (hw : wellFormedUrl u) :
    '/' ∈ u.host ++ pathChars u.path := by
  obtain ⟨pseg, prest, hpe⟩ : ∃ a b, u.path = a :: b := by
    cases hp : u.path with
    | nil => exact absurd hp hw.2.2.2.1
    | cons a b => exact ⟨a, b, rfl⟩
  refine List.mem_append.2 (Or.inr ?_)
  rw [hpe]
  exact List.mem_cons_self _ _

theorem craft_prepend_eq (u : Url) (hw : wellFormedUrl u)
    (hcr : u.scheme = ("craft").data) (f : Option Str) :
    ("craft://").data ++ (u.host ++ pathChars u.path ++ optPart '#' f)
      = u.display ++ optPart '#' f := by
  have h1 : ("craft://").data ++ (u.host ++ pathChars u.path ++ optPart '#' f)
      = ("craft").data ++ ':' :: '/' :: '/' :: (u.host ++ pathChars u.path ++ optPart '#' f) := rfl
  rw [h1]
  unfold Url.display
  rw [hcr, hw.2.2.2.2.2.1, hw.2.2.2.2.2.2]
  simp [optPart, List.append_assoc]

theorem c6_url_craft (u : Url) (hw : wellFormedUrl u)
    (hcr : u.scheme = ("craft").data)
    (nm : Str) (hok : ∀ c ∈ nm, nameOkChar c = true)
    (verO : Option SemVersion) (l : Str) (hl : u.path.getLast? = some l)
    (hcase : l = nm ∨ verO.isSome = true ∨ headAlpha nm) :
    PackageIdSpec.parse (PackageIdSpec.display { name := nm, version := verO, url := some u })
      = .ok { name := nm, version := verO, url := some u } := by
  have hmodel := fromUrlModel_compute u hw.2.2.2.2.2.1 hw.2.2.2.2.2.2 l hl
  have hcb := colon_not_mem_base u hw
  have hnmc : ':' ∉ nm := fun k =>
    absurd (nameOkChar_spec (hok ':' k)).2.1 (fun e => e rfl)
  have hslash : '/' ∈ u.host ++ pathChars u.path := slash_mem_base u hw
  by_cases hln : l = nm
  · cases verO with
    | none =>
      have hdisp : PackageIdSpec.display { name := nm, version := none, url := some u }
          = u.host ++ pathChars u.path ++ optPart '#' none := by
        simp [PackageIdSpec.display, hl, hln, hcr, optPart]
      rw [hdisp]
      have hnc : ':' ∉ u.host ++ pathChars u.path ++ optPart '#' none := by
        simpa [optPart] using hcb
      have hnosub : containsSeq [':', '/', '/']
          (u.host ++ pathChars u.path ++ optPart '#' none) = false := by
        cases hcs : containsSeq [':', '/', '/'] (u.host ++ pathChars u.path ++ optPart '#' none)
        · rfl
        · exact absurd (containsSeq_cons_mem _ _ _ hcs) hnc
      unfold PackageIdSpec.parse
      rw [contains_true (List.mem_append.2 (Or.inl hslash))]
      simp only [if_true]
      simp only [parseUrlChars_no_colon hnc, hnosub, Bool.not_false, if_true]
      rw [craft_prepend_eq u hw hcr none, parseUrl_display_frag u hw none]
      show PackageIdSpec.fromUrlModel { u with fragment := none } = _
      rw [hmodel.1, hln]
    | some ver =>
      have hdisp : PackageIdSpec.display { name := nm, version := some ver, url := some u }
          = u.host ++ pathChars u.path ++ optPart '#' (some ver.display) := by
        simp [PackageIdSpec.display, hl, hln, hcr, optPart]
      rw [hdisp]
      have hnc : ':' ∉ u.host ++ pathChars u.path ++ optPart '#' (some ver.display) := by
        intro k
        rcases List.mem_append.1 k with h | h
        · exact hcb h
        · rcases List.mem_cons.1 h with h2 | h2
          · cases h2
          · exact semVersion_display_no_colon ver h2
      have hnosub : containsSeq [':', '/', '/']
          (u.host ++ pathChars u.path ++ optPart '#' (some ver.display)) = false := by
        cases hcs : containsSeq [':', '/', '/']
          (u.host ++ pathChars u.path ++ optPart '#' (some ver.display))
        · rfl
        · exact absurd (containsSeq_cons_mem _ _ _ hcs) hnc
      unfold PackageIdSpec.parse
      rw [contains_true (List.mem_append.2 (Or.inl hslash))]
      simp only [if_true]
      simp only [parseUrlChars_no_colon hnc, hnosub, Bool.not_false, if_true]
      rw [craft_prepend_eq u hw hcr (some ver.display), parseUrl_display_frag u hw (some ver.display)]
      show PackageIdSpec.fromUrlModel { u with fragment := some ver.display } = _
      rw [hmodel.2.1 ver, hln]
  · cases verO with
    | none =>
      rcases hcase with h | h | h
      · exact absurd h hln
      · cases h
      · have hdisp : PackageIdSpec.display { name := nm, version := none, url := some u }
            = u.host ++ pathChars u.path ++ optPart '#' (some nm) := by
          simp only [PackageIdSpec.display, hl, hcr, if_true]
          simp [hln, Ne.symm, optPart]
        rw [hdisp]
        have hnc : ':' ∉ u.host ++ pathChars u.path ++ optPart '#' (some nm) := by
          intro k
          rcases List.mem_append.1 k with h2 | h2
          · exact hcb h2
          · rcases List.mem_cons.1 h2 with h3 | h3
            · cases h3
            · exact hnmc h3
        have hnosub : containsSeq [':', '/', '/']
            (u.host ++ pathChars u.path ++ optPart '#' (some nm)) = false := by
          cases hcs : containsSeq [':', '/', '/']
            (u.host ++ pathChars u.path ++ optPart '#' (some nm))
          · rfl
          · exact absurd (containsSeq_cons_mem _ _ _ hcs) hnc
        unfold PackageIdSpec.parse
        rw [contains_true (List.mem_append.2 (Or.inl hslash))]
        simp only [if_true]
        simp only [parseUrlChars_no_colon hnc, hnosub, Bool.not_false, if_true]
        rw [craft_prepend_eq u hw hcr (some nm), parseUrl_display_frag u hw (some nm)]
        show PackageIdSpec.fromUrlModel { u with fragment := some nm } = _
        rw [hmodel.2.2.1 nm hok h]
    | some ver =>
      obtain ⟨c, cs, hdv, hdig⟩ := semVersion_display_head ver
      have hcslash : c ≠ '/' := isDigit_ne hdig (by decide)
      have hdisp : PackageIdSpec.display { name := nm, version := some ver, url := some u }
          = (u.host ++ pathChars u.path ++ '#' :: nm) ++ ':' :: ver.display := by
        simp only [PackageIdSpec.display, hl, hcr, if_true]
        simp [hln, Ne.symm, optPart, List.append_assoc]
      have hA : ':' ∉ u.host ++ pathChars u.path ++ '#' :: nm := by
        intro k
        rcases List.mem_append.1 k with h2 | h2
        · exact hcb h2
        · rcases List.mem_cons.1 h2 with h3 | h3
          · cases h3
          · exact hnmc h3
      have hvc : ':' ∉ ver.display := semVersion_display_no_colon ver
      have hnosub : containsSeq [':', '/', '/']
          ((u.host ++ pathChars u.path ++ '#' :: nm) ++ ':' :: ver.display) = false := by
        cases hcs : containsSeq [':', '/', '/']
          ((u.host ++ pathChars u.path ++ '#' :: nm) ++ ':' :: ver.display)
        · rfl
        · exfalso
          obtain ⟨pre, suf, hps⟩ := (containsSeq_infix_eq _ _).1 hcs
          rw [show pre ++ [':', '/', '/'] ++ suf = pre ++ ':' :: '/' :: '/' :: suf from by
            simp] at hps
          obtain ⟨hpre, hq2⟩ := unique_sep hps hA hvc
          rw [hdv] at hq2
          injection hq2 with h1 h2
          exact hcslash h1.symm
      have herr : parseUrlChars ((u.host ++ pathChars u.path ++ '#' :: nm) ++ ':' :: ver.display)
          = .error ("relative URL without a base").data := by
        rw [hdv]
        exact parseUrlChars_bad_rest _ hA c hcslash cs
      have hceq : ("craft://").data ++ ((u.host ++ pathChars u.path ++ '#' :: nm) ++ ':' :: ver.display)
          = u.display ++ optPart '#' (some (nm ++ ':' :: ver.display)) := by
        rw [← craft_prepend_eq u hw hcr (some (nm ++ ':' :: ver.display))]
        simp [optPart, List.append_assoc]
      rw [hdisp]
      unfold PackageIdSpec.parse
      rw [contains_true (List.mem_append.2 (Or.inl (List.mem_append.2 (Or.inl hslash))))]
      simp only [if_true]
      simp only [herr, hnosub, Bool.not_false, if_true]
      rw [hceq, parseUrl_display_frag u hw (some (nm ++ ':' :: ver.display))]
      show PackageIdSpec.fromUrlModel { u with fragment := some (nm ++ ':' :: ver.display) } = _
      rw [hmodel.2.2.2 nm ver hok]

/-- C6 (counterexample): parse is not a left inverse of display on the full
space of package id specs; for the spec named `2foo` with no version and URL
`http://example.com/bar`, the display renders `http://example.com/bar#2foo`
and parsing it fails (the fragment does not start alphabetically and is not a
version). -/
theorem c6_counterexample :
    PackageIdSpec.parse (PackageIdSpec.display exSpecBad)
      = .error ("invalid version").data := by decide

/-- C6 (amended): `parse (display v) = v` holds for every spec whose name is
nonempty and made of the accepted name characters, provided that, when a URL
is present, the URL is canonical (`wellFormedUrl`), a craft-scheme URL has a
host (the original display panics otherwise), and either the name equals the
last path segment, or a version is present, or the name starts
alphabetically. -/
theorem c6_roundtrip_amended :
    ∀ v : PackageIdSpec, plainName v.name →
      (∀ u, v.url = some u → wellFormedUrl u ∧
        (u.scheme = ("craft").data → u.host ≠ []) ∧
        ((u.path.getLast?).getD [] = v.name ∨ v.version.isSome = true ∨ headAlpha v.name)) →
      PackageIdSpec.parse (PackageIdSpec.display v) = .ok v := by
  intro v hpn hu
  rcases v with ⟨nm, verO, urlO⟩
  obtain ⟨hne, hok⟩ := hpn
  cases urlO with
  | none => exact c6_plain_branch nm hok verO
  | some u =>
    obtain ⟨hw, hhost, hcase⟩ := hu u rfl
    obtain ⟨l, hl⟩ : ∃ l, u.path.getLast? = some l :=
      Option.isSome_iff_exists.1 (List.getLast?_isSome.2 hw.2.2.2.1)
    have hcase2 : l = nm ∨ verO.isSome = true ∨ headAlpha nm := by
      rcases hcase with h | h
      · left
        rw [hl] at h
        simpa using h
      · right
        exact h
    by_cases hcr : u.scheme = ("craft").data
    · exact c6_url_craft u hw hcr nm hok verO l hl hcase2
    · exact c6_url_noncraft u hw hcr nm hok hne verO l hl hcase2

/-- Witness for the amended C6 round trip at the concrete craft-scheme spec
`chest.io/foo#qux:2.0.0`. -/
theorem c6_roundtrip_amended_witness :
    PackageIdSpec.parse (PackageIdSpec.display exSpecW) = .ok exSpecW :=
  c6_roundtrip_amended exSpecW (by decide)
    (fun u hu => by
      injection hu with h
      subst h
      exact ⟨by decide, by decide, by decide⟩)

/-- C7: in the file filter of `PathSource::list_files`, when the manifest
include list is nonempty a candidate file is retained exactly when some
include pattern matches its relative path, and the exclude patterns have no
effect; when the include list is empty a candidate is retained exactly when
no exclude pattern matches. -/
theorem c7_include_wins :
    ∀ (includePats excludePats : List (Str → Bool)) (rp : Str),
      (includePats ≠ [] →
        ((listFilesFilter includePats excludePats rp = true ↔
          ∃ p ∈ includePats, p rp = true) ∧
        listFilesFilter includePats excludePats rp
          = listFilesFilter includePats [] rp)) ∧
      (includePats = [] →
        (listFilesFilter includePats excludePats rp = true ↔
          ∀ p ∈ excludePats, p rp = false)) := by
  intro inc exc rp
  constructor
  · intro hni
    have hie : inc.isEmpty = false := by
      cases inc
      · exact absurd rfl hni
      · rfl
    unfold listFilesFilter
    constructor
    · simp [hie, List.any_eq_true]
    · simp [hie]
  · rintro rfl
    unfold listFilesFilter
    simp only [List.any_nil, List.isEmpty_nil, Bool.true_and, Bool.false_or]
    constructor
    · intro h p hp
      have := List.any_eq_false.1 (by simpa using h) p hp
      simpa using this
    · intro h
      simp only [Bool.not_eq_true']
      exact List.any_eq_false.2 (fun p hp => by simp [h p hp])

/-- Witness for C7 at concrete patterns: a matching include pattern retains
the file even though an exclude pattern matches too, and with no include
patterns a non-matching exclude list retains the file. -/
theorem c7_witness :
    (listFilesFilter [exPatTrue] [exPatTrue] ("f").data = true) ∧
    (listFilesFilter [] [exPatFalse] ("f").data = true) := by
  constructor
  · exact ((c7_include_wins [exPatTrue] [exPatTrue] ("f").data).1
      (by simp)).1.mpr ⟨exPatTrue, by simp, rfl⟩
  · exact ((c7_include_wins [] [exPatFalse] ("f").data).2 rfl).mpr
      (fun p hp => by
        rcases List.mem_singleton.1 hp with rfl
        rfl)

/-- C8: whenever the replace-with chain of `SourceConfigMap::load` resolves
to a replacement id, a checksum-support mismatch between the replacement and
the requested source fails with an error and never returns a
`ReplacedSource`, while agreement returns the `ReplacedSource` wrapping the
replacement id. -/
theorem c8_checksum_guard :
    ∀ (m : SourceConfigMap) (id : SourceId) (fuel : Nat) (name : Str) (new_id : SourceId),
      lookupName m.id2name id = some name →
      scmLoop m id name fuel name = some (.ok (some new_id)) →
      (new_id.kind.supportsChecksums = id.kind.supportsChecksums →
        scmLoad m id fuel = some (.ok (.replaced id new_id))) ∧
      (new_id.kind.supportsChecksums ≠ id.kind.supportsChecksums →
        scmLoad m id fuel
          = some (.error ("cannot replace the source: checksum support differs").data) ∧
        ∀ r, scmLoad m id fuel ≠ some (.ok r)) := by
  intro m id fuel name new_id hname hloop
  have hload : scmLoad m id fuel
      = (if new_id.kind.supportsChecksums != id.kind.supportsChecksums then
          some (.error ("cannot replace the source: checksum support differs").data)
        else some (.ok (.replaced id new_id))) := by
    unfold scmLoad
    simp only [hname, hloop]
  constructor
  · intro heq
    rw [hload, if_neg (by simp [heq])]
  · intro hne
    have hcond : (new_id.kind.supportsChecksums != id.kind.supportsChecksums) = true := by
      simp [bne_iff_ne, hne]
    rw [hload, if_pos hcond]
    exact ⟨rfl, fun r hr => by cases hr⟩

/-- Witness for C8: replacing the example registry with a local registry
(both support checksums) yields the replaced source, and replacing it with a
path source (no checksum support) fails. -/
theorem c8_checksum_guard_witness :
    scmLoad exScmGood exSidReg 2
      = some (.ok (.replaced exSidReg ((SourceId.forLocalRegistry exUrlFile).with_precise none))) ∧
    scmLoad exScmBad exSidReg 2
      = some (.error ("cannot replace the source: checksum support differs").data) := by
  constructor
  · exact (c8_checksum_guard exScmGood exSidReg 2 (("o").data)
      ((SourceId.forLocalRegistry exUrlFile).with_precise none) (by decide) (by decide)).1
      (by decide)
  · exact ((c8_checksum_guard exScmBad exSidReg 2 (("o").data)
      ((SourceId.forPath exUrlFile).with_precise none) (by decide) (by decide)).2
      (by decide)).1

theorem scmLoop_cyc_none :
    ∀ fuel name, (name = ("a").data ∨ name = ("b").data) →
      scmLoop exScmCyc exSidReg (("o").data) fuel name = none := by
  intro fuel
  induction fuel with
  | zero => intro name h; rfl
  | succ n ih =>
    intro name h
    rcases h with rfl | rfl
    · show scmLoop exScmCyc exSidReg (("o").data) (n + 1) (("a").data) = none
      rw [show scmLoop exScmCyc exSidReg (("o").data) (n + 1) (("a").data)
          = scmLoop exScmCyc exSidReg (("o").data) n (("b").data) from rfl]
      exact ih _ (Or.inr rfl)
    · show scmLoop exScmCyc exSidReg (("o").data) (n + 1) (("b").data) = none
      rw [show scmLoop exScmCyc exSidReg (("o").data) (n + 1) (("b").data)
          = scmLoop exScmCyc exSidReg (("o").data) n (("a").data) from rfl]
      exact ih _ (Or.inl rfl)

/-- C9: on the configuration whose replace-with chain from `o` enters the
cycle `a -> b -> a` that never returns to `o`, `SourceConfigMap::load` never
terminates (for every fuel the loop is still running), contradicting the
specified cyclic-source-replacement error; the cycle error is produced only
when the chain returns to the requested source own name, as on the second
configuration. -/
theorem c9_cycle_divergence :
    (∀ fuel, scmLoad exScmCyc exSidReg fuel = none) ∧
    scmLoad exScmCycO exSidReg 10
      = some (.error ("detected a cycle of replace-with sources").data) := by
  constructor
  · intro fuel
    cases fuel with
    | zero => rfl
    | succ n =>
      unfold scmLoad
      simp only [show lookupName exScmCyc.id2name exSidReg = some (("o").data) from rfl]
      rw [show scmLoop exScmCyc exSidReg (("o").data) (n + 1) (("o").data)
          = scmLoop exScmCyc exSidReg (("o").data) n (("a").data) from rfl]
      rw [scmLoop_cyc_none n _ (Or.inl rfl)]
  · decide

/-- C1: the lockfile overlay of `PackageRegistry::lock`, applied by `query`
to every returned summary.  The summary id is replaced by the locked id of a
matching lock entry (same source and name, equal package id) when one exists
and kept otherwise; the dependency list keeps its length and each dependency
is rewritten to the exact locked id it matches, searched first in the
locked-dependency list of the summary own prior resolution and otherwise in
the lock entries registered for the dependency source and name; a dependency
matching no lock entry is returned unchanged. -/
theorem c1_lock_overlay :
    ∀ (st : RegistryState) (s : Summary),
      ((∃ pr, lockPair st s = some pr ∧ (st.lock s).package_id = pr.1 ∧
          pkgIdEq pr.1 s.package_id = true) ∨
        (lockPair st s = none ∧ (st.lock s).package_id = s.package_id)) ∧
      (st.lock s).dependencies.length = s.dependencies.length ∧
      (∀ (i : Nat) (d d' : Dependency), s.dependencies[i]? = some d →
        (st.lock s).dependencies[i]? = some d' →
        ((∃ id ∈ ownLockedDeps st s, d.matches_id id = true ∧ d' = d.lock_to id ∧
            d'.req = VersionReq.exact id.version ∧ d'.source_id = id.source_id) ∨
         ((∀ id ∈ ownLockedDeps st s, d.matches_id id = false) ∧
          ∃ pr ∈ registeredLocked st d, d.matches_id pr.1 = true ∧ d' = d.lock_to pr.1 ∧
            d'.req = VersionReq.exact pr.1.version ∧ d'.source_id = pr.1.source_id) ∨
         ((∀ id ∈ ownLockedDeps st s, d.matches_id id = false) ∧
          (∀ pr ∈ registeredLocked st d, d.matches_id pr.1 = false) ∧ d' = d))) := by
  intro st s
  have hdeps : (st.lock s).dependencies
      = s.dependencies.map (lockDep st (lockPair st s)) := by
    unfold RegistryState.lock
    cases lockPair st s <;> rfl
  have hpid : (st.lock s).package_id
      = (match lockPair st s with
         | some pr => pr.1
         | none => s.package_id) := by
    unfold RegistryState.lock
    cases lockPair st s <;> rfl
  refine ⟨?_, by rw [hdeps, List.length_map], ?_⟩
  · cases hp : lockPair st s with
    | some pr =>
      left
      refine ⟨pr, rfl, by rw [hpid, hp], ?_⟩
      unfold lockPair at hp
      obtain ⟨vec, hvec, hfind⟩ := Option.bind_eq_some.1 hp
      simpa using List.find?_some hfind
    | none =>
      right
      exact ⟨rfl, by rw [hpid, hp]⟩
  · intro i d d' hd hd'
    rw [hdeps, List.getElem?_map, hd] at hd'
    have hd2 : d' = lockDep st (lockPair st s) d := by
      injection hd' with h
      exact h.symm
    have hsecond : ∀ hown : ∀ id ∈ ownLockedDeps st s, d.matches_id id = false,
        d' = (match ((lockedGet st.locked d.source_id).bind
            (fun m => nameGet m d.name)).bind
            (fun vec => vec.find? (fun pr => d.matches_id pr.1)) with
          | some pr => d.lock_to pr.1
          | none => d) →
        ((∃ id ∈ ownLockedDeps st s, d.matches_id id = true ∧ d' = d.lock_to id ∧
            d'.req = VersionReq.exact id.version ∧ d'.source_id = id.source_id) ∨
         ((∀ id ∈ ownLockedDeps st s, d.matches_id id = false) ∧
          ∃ pr ∈ registeredLocked st d, d.matches_id pr.1 = true ∧ d' = d.lock_to pr.1 ∧
            d'.req = VersionReq.exact pr.1.version ∧ d'.source_id = pr.1.source_id) ∨
         ((∀ id ∈ ownLockedDeps st s, d.matches_id id = false) ∧
          (∀ pr ∈ registeredLocked st d, d.matches_id pr.1 = false) ∧ d' = d)) := by
      intro hown hval
      cases hv : (lockedGet st.locked d.source_id).bind (fun m => nameGet m d.name) with
      | none =>
        right; right
        refine ⟨hown, ?_, ?_⟩
        · intro pr hpr
          unfold registeredLocked at hpr
          rw [hv] at hpr
          cases hpr
        · rw [hval, hv]
          rfl
      | some vec =>
        have hreg : registeredLocked st d = vec := by
          unfold registeredLocked
          rw [hv]
          rfl
        cases hf : vec.find? (fun pr => d.matches_id pr.1) with
        | some pr =>
          right; left
          have hd3 : d' = d.lock_to pr.1 := by rw [hval, hv]; simp [hf]
          exact ⟨hown, pr, by rw [hreg]; exact List.mem_of_find?_eq_some hf,
            by simpa using List.find?_some hf, hd3, by rw [hd3]; rfl, by rw [hd3]; rfl⟩
        | none =>
          right; right
          refine ⟨hown, ?_, ?_⟩
          · intro pr hpr
            rw [hreg] at hpr
            have := List.find?_eq_none.1 hf pr hpr
            simpa using this
          · rw [hval, hv]
            simp [hf]
    cases hp : lockPair st s with
    | some pr =>
      have hown : ownLockedDeps st s = pr.2 := by
        unfold ownLockedDeps
        rw [hp]
      cases hf1 : pr.2.find? (fun id => d.matches_id id) with
      | some locked =>
        left
        have hd3 : d' = d.lock_to locked := by
          rw [hd2]
          simp only [lockDep, hp, hf1]
        exact ⟨locked, by rw [hown]; exact List.mem_of_find?_eq_some hf1,
          by simpa using List.find?_some hf1, hd3, by rw [hd3]; rfl, by rw [hd3]; rfl⟩
      | none =>
        have hownf : ∀ id ∈ ownLockedDeps st s, d.matches_id id = false := by
          rw [hown]
          intro id hid
          have := List.find?_eq_none.1 hf1 id hid
          simpa using this
        refine hsecond hownf ?_
        rw [hd2]
        simp only [lockDep, hp, hf1]
    | none =>
      have hownf : ∀ id ∈ ownLockedDeps st s, d.matches_id id = false := by
        unfold ownLockedDeps
        rw [hp]
        intro id hid
        cases hid
      refine hsecond hownf ?_
      rw [hd2]
      simp only [lockDep, hp]

/-- Witness for C1 at a concrete state: the single dependency of the example
summary hits the first branch, the locked-dependency search of the summary
own lock entry. -/
theorem c1_lock_overlay_witness :
    (∃ id ∈ ownLockedDeps exStLock exSummaryDep, exDep.matches_id id = true ∧
        exDep.lock_to exPid = exDep.lock_to id ∧
        (exDep.lock_to exPid).req = VersionReq.exact id.version ∧
        (exDep.lock_to exPid).source_id = id.source_id) ∨
    ((∀ id ∈ ownLockedDeps exStLock exSummaryDep, exDep.matches_id id = false) ∧
      ∃ pr ∈ registeredLocked exStLock exDep, exDep.matches_id pr.1 = true ∧
        exDep.lock_to exPid = exDep.lock_to pr.1 ∧
        (exDep.lock_to exPid).req = VersionReq.exact pr.1.version ∧
        (exDep.lock_to exPid).source_id = pr.1.source_id) ∨
    ((∀ id ∈ ownLockedDeps exStLock exSummaryDep, exDep.matches_id id = false) ∧
      (∀ pr ∈ registeredLocked exStLock exDep, exDep.matches_id pr.1 = false) ∧
      exDep.lock_to exPid = exDep) :=
  (c1_lock_overlay exStLock exSummaryDep).2.2 0 exDep (exDep.lock_to exPid)
    (by rfl) (by rfl)

/-- The `ensure_loaded` step never changes the lock map. -/
theorem ensure_loaded_locked_eq (st : RegistryState) (id : SourceId) (k : RegKind) :
    (st.ensure_loaded id k).1.locked = st.locked := by
  unfold RegistryState.ensure_loaded RegistryState.load
  cases h : lookupSrc st.source_ids id with
  | none => cases k <;> rfl
  | some e =>
    rcases e with ⟨prev, kk⟩
    cases kk
    · by_cases h1 : prev.precise = none
      · simp [h1]
      · by_cases h2 : prev.precise = id.precise
        · simp [h1, h2]
        · cases k <;> simp [h1, h2]
    · rfl
    · by_cases h1 : prev.precise = none
      · simp [h1]
      · by_cases h2 : prev.precise = id.precise
        · simp [h1, h2]
        · cases k <;> simp [h1, h2]

/-- `lock` reads only the lock map of the state. -/
theorem lock_eq_of_locked {a b : RegistryState} (h : a.locked = b.locked)
    (s : Summary) : a.lock s = b.lock s := by
  unfold RegistryState.lock lockPair lockDep lockedGet
  rw [h]

/-- `warn_bad_override` reads only the lock map of the state. -/
theorem warnBadOverride_eq_of_locked {a b : RegistryState} (h : a.locked = b.locked)
    (x y : Summary) : warnBadOverride a x y = warnBadOverride b x y := by
  unfold warnBadOverride lockedGet
  rw [h]

/-- C3 (counterexample): with an override match in hand, `query` returns an
error (not just a warning) when the real source yields two summaries, because
`warn_bad_override` bails on a non-singleton real result. -/
theorem c3_counterexample :
    (pkgQuery exStEmpty exDep [[exCand]] (some [exSummary, exSummary])).2
      = .error ("found an override with a non-locked list").data := by decide

/-- C3 (amended): when an override source yields a summary `c` and the real
source yields exactly one summary whose id has a registered lock entry,
`query` returns only the locked override summary and the dependency-divergence
warnings; the real summary is discarded. -/
theorem c3_override_query :
    ∀ (st : RegistryState) (dep : Dependency) (ovResults : List (List Summary))
      (c real_summary : Summary) (m : List (Str × List (PackageId × List PackageId)))
      (lst : List (PackageId × List PackageId)) (pr : PackageId × List PackageId),
      queryOverrides ovResults = some c →
      lockedGet st.locked real_summary.source_id = some m →
      nameGet m real_summary.name = some lst →
      lst.find? (fun pr => pkgIdEq real_summary.package_id pr.1) = some pr →
      (pkgQuery st dep ovResults (some [real_summary])).2
        = .ok ([st.lock c], warnLoop c.dependencies pr.2) := by
  intro st dep ovResults c real_summary m lst pr hov hsrc hname hfind
  have hle : (st.ensure_loaded dep.source_id RegKind.normal).1.locked = st.locked :=
    ensure_loaded_locked_eq st dep.source_id RegKind.normal
  have hwarn : warnBadOverride (st.ensure_loaded dep.source_id RegKind.normal).1
      c real_summary = .ok (warnLoop c.dependencies pr.2) := by
    rw [warnBadOverride_eq_of_locked hle]
    unfold warnBadOverride
    simp only [hsrc, hname, hfind]
  unfold pkgQuery
  rw [hov]
  simp only [hwarn, List.map, lock_eq_of_locked hle]

/-- Witness for C3 (amended) at a concrete locked state with one override
candidate and one real summary. -/
theorem c3_override_query_witness :
    (pkgQuery exStLock exDep [[exCand]] (some [exSummary])).2
      = .ok ([exStLock.lock exCand], warnLoop exCand.dependencies []) :=
  c3_override_query exStLock exDep [[exCand]] exCand exSummary
    [(("foo").data, [(exPid, [])])] [(exPid, [])] (exPid, [])
    (by rfl) (by rfl) (by rfl) (by rfl)

/-- `find?` only depends on the pointwise values of the predicate. -/
theorem find?_congr {α : Type} {p q : α → Bool} :
    ∀ l : List α, (∀ x ∈ l, p x = q x) → l.find? p = l.find? q := by
  intro l
  induction l with
  | nil => intro h; rfl
  | cons a rest ih =>
    intro h
    rw [List.find?_cons, List.find?_cons, h a (List.mem_cons_self a rest)]
    cases q a
    · exact ih (fun x hx => h x (List.mem_cons_of_mem a hx))
    · rfl

/-- Booleans agreeing as propositions are equal. -/
theorem bool_eq_of_iff {a b : Bool} (h : a = true ↔ b = true) : a = b := by
  cases a <;> cases b <;> simp_all

/-- Source-id lookup ignores the precise pin of the queried id. -/
theorem lookupSrc_with_precise (m : List (SourceId × SourceId × RegKind))
    (ns : SourceId) (p : Option Str) :
    lookupSrc m (ns.with_precise p) = lookupSrc m ns := rfl

/-- Lookup respects source-id equality on well-formed ids. -/
theorem lookupSrc_congr {m : List (SourceId × SourceId × RegKind)} {id ns : SourceId}
    (hwid : id.wf) (hwns : ns.wf) (hkeys : ∀ e ∈ m, SourceId.wf e.1)
    (heq : sourceIdEq id ns = true) :
    lookupSrc m id = lookupSrc m ns := by
  unfold lookupSrc
  rw [find?_congr m (fun e he => ?_)]
  exact bool_eq_of_iff
    ⟨fun h => sourceIdEq_trans (hkeys e he) hwid hwns h heq,
     fun h => sourceIdEq_trans (hkeys e he) hwns hwid h (sourceIdEq_symm heq)⟩

/-- Inserting under a key not equal to the queried id leaves lookup
unchanged. -/
theorem lookupSrc_insert_ne {m : List (SourceId × SourceId × RegKind)}
    {id ns : SourceId} (v : SourceId × RegKind)
    (hwid : id.wf) (hwns : ns.wf) (hkeys : ∀ e ∈ m, SourceId.wf e.1)
    (hne : ¬ sourceIdEq id ns = true) :
    lookupSrc (insertSrc m id v) ns = lookupSrc m ns := by
  unfold insertSrc
  by_cases hp : (m.find? (fun e => sourceIdEq e.1 id)).isSome
  · rw [if_pos hp]
    unfold lookupSrc
    clear hp
    induction m with
    | nil => rfl
    | cons e rest ih =>
      have hkr : ∀ x ∈ rest, SourceId.wf x.1 :=
        fun x hx => hkeys x (List.mem_cons_of_mem e hx)
      have hke : SourceId.wf e.1 := hkeys e (List.mem_cons_self e rest)
      by_cases hens : sourceIdEq e.1 ns = true
      · have hnid : sourceIdEq e.1 id = false := by
          cases hid : sourceIdEq e.1 id
          · rfl
          · exact absurd (sourceIdEq_trans hwid hke hwns
              (sourceIdEq_symm hid) hens) hne
        simp only [List.map, List.find?_cons, hnid, hens]
        simp [hens]
      · have hens2 : sourceIdEq (if sourceIdEq e.1 id then (e.1, v) else e).1 ns = false := by
          by_cases hid : sourceIdEq e.1 id = true
          · simp only [hid, if_true]
            simpa using hens
          · simp only [Bool.not_eq_true] at hid
            simp only [hid, if_false]
            simpa using hens
        simp only [List.map, List.find?_cons, hens2]
        simp only [Bool.not_eq_true] at hens
        simp only [List.find?_cons, hens]
        exact ih hkr
  · rw [if_neg hp]
    unfold lookupSrc
    rw [List.find?_cons]
    have : sourceIdEq id ns = false := by simpa using hne
    simp [this]

/-- Lookup after insert under the same key returns the inserted value. -/
theorem lookupSrc_insert_self (m : List (SourceId × SourceId × RegKind))
    (id : SourceId) (v : SourceId × RegKind) :
    lookupSrc (insertSrc m id v) id = some v := by
  unfold insertSrc
  by_cases hp : (m.find? (fun e => sourceIdEq e.1 id)).isSome
  · rw [if_pos hp]
    unfold lookupSrc
    induction m with
    | nil => simp at hp
    | cons e rest ih =>
      by_cases he : sourceIdEq e.1 id = true
      · simp only [List.map, List.find?_cons, he, if_true]
        simp [he]
      · simp only [Bool.not_eq_true] at he
        simp only [List.map, List.find?_cons, he, Bool.false_eq_true, if_false]
        refine ih ?_
        simpa [List.find?_cons, he] using hp
  · rw [if_neg hp]
    unfold lookupSrc
    simp [List.find?_cons, sourceIdEq_refl]

/-- Insertion of a well-formed key preserves well-formedness of all keys. -/
theorem insertSrc_keys_wf {m : List (SourceId × SourceId × RegKind)}
    {id : SourceId} (v : SourceId × RegKind)
    (hwid : id.wf) (hkeys : ∀ e ∈ m, SourceId.wf e.1) :
    ∀ e ∈ insertSrc m id v, SourceId.wf e.1 := by
  intro e he
  unfold insertSrc at he
  by_cases hp : (m.find? (fun x => sourceIdEq x.1 id)).isSome
  · rw [if_pos hp] at he
    obtain ⟨x, hx, hfx⟩ := List.mem_map.1 he
    by_cases hxi : sourceIdEq x.1 id = true
    · rw [← hfx]
      simpa [hxi] using hkeys x hx
    · simp only [Bool.not_eq_true] at hxi
      rw [← hfx]
      simpa [hxi] using hkeys x hx
  · rw [if_neg hp] at he
    rcases List.mem_cons.1 he with rfl | h2
    · exact hwid
    · exact hkeys e h2

/-- `load` registers the id in `source_ids` (the overrides stack aside). -/
theorem load_source_ids (st : RegistryState) (id : SourceId) (k : RegKind) :
    (st.load id k).1.source_ids = insertSrc st.source_ids id (id, k) := by
  unfold RegistryState.load
  by_cases h : k = RegKind.override <;> simp [h]

/-- `load` always reports that `update()` ran. -/
theorem load_snd (st : RegistryState) (id : SourceId) (k : RegKind) :
    (st.load id k).2 = true := by
  unfold RegistryState.load
  by_cases h : k = RegKind.override <;> simp [h]

/-- `ensure_loaded` on an id registered as `Locked` is a no-op. -/
theorem ensure_eq_locked {st : RegistryState} {id : SourceId} (k : RegKind)
    {prev : SourceId}
    (h : lookupSrc st.source_ids id = some (prev, RegKind.locked)) :
    st.ensure_loaded id k = (st, false) := by
  unfold RegistryState.ensure_loaded
  rw [h]

/-- `ensure_loaded` on an unregistered id loads it. -/
theorem ensure_eq_missing {st : RegistryState} {id : SourceId} (k : RegKind)
    (h : lookupSrc st.source_ids id = none) :
    st.ensure_loaded id k = st.load id k := by
  unfold RegistryState.ensure_loaded
  rw [h]

/-- `ensure_loaded` on an id registered other than `Locked` consults the
precise pins. -/
theorem ensure_eq_other {st : RegistryState} {id : SourceId} (k : RegKind)
    {prev : SourceId} {kk : RegKind} (hkk : kk ≠ RegKind.locked)
    (h : lookupSrc st.source_ids id = some (prev, kk)) :
    st.ensure_loaded id k
      = (if prev.precise = none then (st, false)
         else if prev.precise = id.precise then (st, false)
         else st.load id k) := by
  unfold RegistryState.ensure_loaded
  rw [h]
  cases kk
  · rfl
  · exact absurd rfl hkk
  · rfl

/-- One `ensure_loaded` call preserves the locked registration of a source
and never runs `update()` for an id equal to it. -/
theorem ensure_preserves_locked {st : RegistryState} {ns : SourceId} (hwns : ns.wf)
    (hkeys : ∀ e ∈ st.source_ids, SourceId.wf e.1)
    (hlock : isLockedFor st ns) (id : SourceId) (k : RegKind) (hwid : id.wf) :
    isLockedFor (st.ensure_loaded id k).1 ns ∧
    (∀ e ∈ (st.ensure_loaded id k).1.source_ids, SourceId.wf e.1) ∧
    (sourceIdEq id ns = true → (st.ensure_loaded id k).2 = false) := by
  obtain ⟨p, hp⟩ := hlock
  by_cases heq : sourceIdEq id ns = true
  · have hl : lookupSrc st.source_ids id = some (p, RegKind.locked) := by
      rw [lookupSrc_congr hwid hwns hkeys heq, hp]
    rw [ensure_eq_locked k hl]
    exact ⟨⟨p, hp⟩, hkeys, fun _ => rfl⟩
  · have hload : isLockedFor (st.load id k).1 ns ∧
        (∀ e ∈ (st.load id k).1.source_ids, SourceId.wf e.1) := by
      constructor
      · refine ⟨p, ?_⟩
        rw [load_source_ids, lookupSrc_insert_ne _ hwid hwns hkeys heq, hp]
      · rw [load_source_ids]
        exact insertSrc_keys_wf _ hwid hkeys
    cases hl : lookupSrc st.source_ids id with
    | none =>
      rw [ensure_eq_missing k hl]
      exact ⟨hload.1, hload.2, fun hcon => absurd hcon heq⟩
    | some e =>
      rcases e with ⟨prev, kk⟩
      by_cases hkk : kk = RegKind.locked
      · subst hkk
        rw [ensure_eq_locked k hl]
        exact ⟨⟨p, hp⟩, hkeys, fun _ => rfl⟩
      · rw [ensure_eq_other k hkk hl]
        by_cases h1 : prev.precise = none
        · rw [if_pos h1]
          exact ⟨⟨p, hp⟩, hkeys, fun _ => rfl⟩
        · by_cases h2 : prev.precise = id.precise
          · rw [if_neg h1, if_pos h2]
            exact ⟨⟨p, hp⟩, hkeys, fun _ => rfl⟩
          · rw [if_neg h1, if_neg h2]
            exact ⟨hload.1, hload.2, fun hcon => absurd hcon heq⟩

/-- Across any sequence of `ensure_loaded` calls on well-formed ids, a source
registered as `Locked` never has `update()` run for it. -/
theorem runEnsures_locked_no_update {ns : SourceId} (hwns : ns.wf) :
    ∀ (calls : List (SourceId × RegKind)) (st : RegistryState),
      (∀ e ∈ st.source_ids, SourceId.wf e.1) → isLockedFor st ns →
      (∀ c ∈ calls, c.1.wf) →
      ∀ pr ∈ (runEnsures st calls).2, sourceIdEq pr.1 ns = true → pr.2 = false := by
  intro calls
  induction calls with
  | nil =>
    intro st _ _ _ pr hpr
    simp [runEnsures] at hpr
  | cons c rest ih =>
    rcases c with ⟨id, k⟩
    intro st hkeys hlock hcw pr hpr heq
    obtain ⟨h1, h2, h3⟩ :=
      ensure_preserves_locked hwns hkeys hlock id k (hcw _ (List.mem_cons_self _ _))
    simp only [runEnsures, List.mem_cons] at hpr
    rcases hpr with h | h
    · subst h
      exact h3 heq
    · exact ih _ h2 h1 (fun d hd => hcw d (List.mem_cons_of_mem _ hd)) pr h heq

/-- C2: once a source id is registered `Locked` (as `add_preloaded` does), no
later `ensure_loaded` for an equal id, whatever its precise pin, ever runs
`update()`, across any call sequence; `add_preloaded` establishes that
registration; a first `ensure_loaded` for an unregistered id runs `update()`;
and for a non-locked registration `update()` runs exactly when the stored
pin is present and differs from the requested one. -/
theorem c2_locked_never_updates (st : RegistryState) (ns : SourceId) :
    (ns.wf → (∀ e ∈ st.source_ids, SourceId.wf e.1) → isLockedFor st ns →
      ∀ calls : List (SourceId × RegKind), (∀ c ∈ calls, c.1.wf) →
      ∀ pr ∈ (runEnsures st calls).2, sourceIdEq pr.1 ns = true → pr.2 = false) ∧
    isLockedFor (st.add_preloaded ns) ns ∧
    (∀ k, lookupSrc st.source_ids ns = none → (st.ensure_loaded ns k).2 = true) ∧
    (∀ k prev kk, lookupSrc st.source_ids ns = some (prev, kk) →
      kk ≠ RegKind.locked →
      ((st.ensure_loaded ns k).2 = true ↔
        ¬(prev.precise = none ∨ prev.precise = ns.precise))) := by
  refine ⟨fun hwns hkeys hlock calls hcw =>
      runEnsures_locked_no_update hwns calls st hkeys hlock hcw,
    ⟨ns, lookupSrc_insert_self st.source_ids ns (ns, RegKind.locked)⟩, ?_, ?_⟩
  · intro k hl
    rw [ensure_eq_missing k hl]
    exact load_snd st ns k
  · intro k prev kk hl hkk
    rw [ensure_eq_other k hkk hl]
    by_cases h1 : prev.precise = none
    · rw [if_pos h1]
      simp [h1]
    · by_cases h2 : prev.precise = ns.precise
      · rw [if_neg h1, if_pos h2]
        simp [h1, h2]
      · rw [if_neg h1, if_neg h2]
        simp [load_snd, h1, h2]

/-- Witness for C2 at concrete states: the preloaded example registry id is
never updated even when re-queried under pin `bbb`; on the empty state the
first query updates; on the state cached under pin `aaa` the query under pin
`bbb` updates exactly because the pins differ. -/
theorem c2_witness :
    ((exStEmpty.add_preloaded exSidReg).ensure_loaded exSidRegB RegKind.normal).2 = false ∧
    isLockedFor (exStEmpty.add_preloaded exSidReg) exSidReg ∧
    (exStEmpty.ensure_loaded exSidRegB RegKind.normal).2 = true ∧
    ((exStPrecise.ensure_loaded exSidRegB RegKind.normal).2 = true ↔
      ¬(exSidRegA.precise = none ∨ exSidRegA.precise = exSidRegB.precise)) := by
  have hB := (c2_locked_never_updates exStEmpty exSidReg).2.1
  have hmem : (exSidRegB,
      ((exStEmpty.add_preloaded exSidReg).ensure_loaded exSidRegB RegKind.normal).2) ∈
      (runEnsures (exStEmpty.add_preloaded exSidReg)
        [(exSidRegB, RegKind.normal)]).2 := by
    simp [runEnsures]
  refine ⟨?_, hB, ?_, ?_⟩
  · exact (c2_locked_never_updates (exStEmpty.add_preloaded exSidReg) exSidReg).1
      (by decide) (by decide) hB [(exSidRegB, RegKind.normal)] (by decide)
      _ hmem (by decide)
  · exact (c2_locked_never_updates exStEmpty exSidRegB).2.2.1 RegKind.normal rfl
  · exact (c2_locked_never_updates exStPrecise exSidRegB).2.2.2 RegKind.normal
      exSidRegA RegKind.normal rfl (by decide)

end Craft
